import Mathlib

/-!
Verification of the Multi-Document-Versioning-Automation registry/snapshot
subsystem.  The Python sources (`build_doc_registry.py`, `get_doc_versions.py`,
`example_integration.py`) are shallowly embedded: strings are lists of
characters, file reads are modelled by an `Option` content (with `none`
standing for an unreadable file), and each scan is a fold over the list of
discovered documents in traversal order (directory traversal itself is out of
scope of the subsystem under verification).
-/

/-- Python strings are modelled as lists of characters. -/
abbrev Str := List Char

/-- The single-quote character, written via its code point. -/
def squote : Char := Char.ofNat 39

/-- Whitespace test used by Python `str.strip()`. -/
def isWs (c : Char) : Bool := c.isWhitespace

/-- Drop leading characters satisfying `p` (left part of `strip`). -/
def trimL (l : Str) : Str := l.dropWhile isWs

/-- Drop trailing whitespace (right part of `strip`), structurally. -/
def dropEndIf (p : Char → Bool) : Str → Str
  | [] => []
  | c :: t =>
    match dropEndIf p t with
    | [] => if p c then [] else [c]
    | r => c :: r

/-- Drop trailing whitespace. -/
def trimR (l : Str) : Str := dropEndIf isWs l

/-- Python `str.strip()`. -/
def trim (l : Str) : Str := trimR (trimL l)

/-- Python `str.strip(ch)` for a single character: remove all leading and
trailing occurrences of that character. -/
def stripCh (q : Char) (l : Str) : Str :=
  dropEndIf (fun c => c = q) (l.dropWhile (fun c => c = q))

/-- Python `str.lower()` (ASCII case fold, the only case relevant here). -/
def lowerS (l : Str) : Str := l.map Char.toLower

/-- Split at the first colon: Python `line.split(":", 1)` guarded by
`":" in line`; `none` when the line has no colon. -/
def splitColon : Str → Option (Str × Str)
  | [] => none
  | c :: t =>
    if c = ':' then some ([], t)
    else (splitColon t).map fun p => (c :: p.1, p.2)

/-- Python `str.split(sep)` for a single-character separator. -/
def splitChar (sep : Char) : Str → List Str
  | [] => [[]]
  | c :: t =>
    if c = sep then [] :: splitChar sep t
    else
      match splitChar sep t with
      | [] => [[c]]
      | h :: r => (c :: h) :: r

/-- Join parts with a single-character separator (inverse of `splitChar`). -/
def intercalateCh (sep : Char) : List Str → Str
  | [] => []
  | [x] => x
  | x :: r => x ++ sep :: intercalateCh sep r

/-- Find the first occurrence of the (non-empty) separator substring,
returning the part before it and the part after it. -/
def splitFirstSub (sep : Str) : Str → Option (Str × Str)
  | [] => none
  | c :: t =>
    if sep.isPrefixOf (c :: t) then some ([], (c :: t).drop sep.length)
    else (splitFirstSub sep t).map fun p => (c :: p.1, p.2)

/-- Python `content.split(sep, 2)`: at most two splits, at most three parts. -/
def split2 (sep : Str) (l : Str) : List Str :=
  match splitFirstSub sep l with
  | none => [l]
  | some (a, r) =>
    match splitFirstSub sep r with
    | none => [a, r]
    | some (b, r2) => [a, b, r2]

/-- Association-list lookup, modelling Python dict lookup / `in`. -/
def lookupA {κ ν : Type} [DecidableEq κ] : List (κ × ν) → κ → Option ν
  | [], _ => none
  | p :: t, k => if p.1 = k then some p.2 else lookupA t k

/-- Association-list update, modelling Python `d[k] = v`: overwrite in place
when the key is present (keeping its position), else append. -/
def updAssoc {κ ν : Type} [DecidableEq κ] (m : List (κ × ν)) (k : κ) (v : ν) :
    List (κ × ν) :=
  match m with
  | [] => [(k, v)]
  | p :: t => if p.1 = k then (k, v) :: t else p :: updAssoc t k v

/-- The registry key type: the value stored under `doc_key` (Python allows a
`None` key, e.g. from the header line `doc_key: null`). -/
abbrev RKey := Option Str

/-- Key order used by `json.dump(..., sort_keys=True)`: code-point
lexicographic order on strings, with the null key ordered first. -/
def strLE : Str → Str → Bool
  | [], _ => true
  | _ :: _, [] => false
  | a :: as, b :: bs =>
    if a.toNat < b.toNat then true
    else if b.toNat < a.toNat then false
    else strLE as bs

/-- Order on registry keys (see `strLE`). -/
def keyLE : RKey → RKey → Bool
  | none, _ => true
  | some _, none => false
  | some a, some b => strLE a b

/-- A parsed front-matter mapping: field name to string-or-null value. -/
abbrev Meta := List (Str × Option Str)

/-- Coerce the literals `null`, `~` and the empty string (case-insensitively)
to an explicit null, as both parsers do. -/
def coerceNull (v : Str) : Option Str :=
  if lowerS v = "null".data ∨ lowerS v = "~".data ∨ lowerS v = "".data then none
  else some v

/-- The strict builder's quote handling: strip exactly one layer when the
value both starts and ends with a double quote, else when it both starts and
ends with a single quote (`value[1:-1]`). -/
def stripQuotesOnce (v : Str) : Str :=
  if ['"'].isPrefixOf v ∧ ['"'].isSuffixOf v then (v.drop 1).dropLast
  else if [squote].isPrefixOf v ∧ [squote].isSuffixOf v then (v.drop 1).dropLast
  else v

/-- Shared head of both `extract_frontmatter` implementations: check the
leading `---` marker, split on `---` at most twice, require three parts, and
split the stripped middle part into lines.  Returns `none` when the document
has no well-delimited header block. -/
def headerLines (c : Str) : Option (List Str) :=
  if "---".data.isPrefixOf c then
    match split2 "---".data c with
    | [_, p1, _] => some (splitChar '\n' (trim p1))
    | _ => none
  else none

/-- A document as seen by a scan: repository-relative path and content;
`none` content models an unreadable file. -/
structure MdFile where
  path : Str
  content : Option Str
deriving DecidableEq

namespace DocRegistryBuilder

/-- One line of the strict builder's front-matter loop: strip the line, split
at the first colon, strip key and value, strip one quote layer, coerce nulls. -/
def lineParse (line : Str) : Option (Str × Option Str) :=
  match splitColon (trim line) with
  | none => none
  | some (k, v) => some (trim k, coerceNull (stripQuotesOnce (trim v)))

/-- One iteration of the builder's metadata fold. -/
def updLine (m : Meta) (line : Str) : Meta :=
  match lineParse line with
  | none => m
  | some (k, v) => updAssoc m k v

/-- The strict builder's front-matter parse of a readable file's content
(`DocRegistryBuilder.extract_frontmatter`, parsing part). -/
def extractMeta (c : Str) : Option Meta :=
  match headerLines c with
  | none => none
  | some lines =>
    let m := lines.foldl updLine []
    if m.isEmpty then none else some m

/-- Diagnostics recorded in `self.errors`, with the data each message names. -/
inductive ErrMsg where
  | cantRead (path : Str)
  | missingFields (path : Str) (fields : List Str)
  | badSemver (path : Str) (value : Str)
  | badStatus (path : Str) (value : Option Str)
  | badContractType (path : Str) (value : Option Str)
deriving DecidableEq

/-- `DocRegistryBuilder.extract_frontmatter`: a read failure is recorded as a
diagnostic and yields no mapping; otherwise the pure parse runs. -/
def extract_frontmatter (path : Str) (content : Option Str) :
    Option Meta × List ErrMsg :=
  match content with
  | none => (none, [ErrMsg.cantRead path])
  | some c => (extractMeta c, [])

/-- The required-field list of `validate_frontmatter`. -/
def required_fields : List Str :=
  ["doc_key".data, "semver".data, "status".data,
   "effective_date".data, "owner".data, "contract_type".data]

/-- Split off the leading run of digits (`\d+` matched greedily). -/
def takeDigits (l : Str) : Str × Str :=
  (l.takeWhile Char.isDigit, l.dropWhile Char.isDigit)

/-- Python `re.match(r'^\d+\.\d+\.\d+$', s)`: three runs of one or more
digits separated by dots, anchored at both ends (where `$` also matches just
before a single trailing newline, as in Python). -/
def semverMatch (s : Str) : Bool :=
  match takeDigits s with
  | (a, r1) =>
    if a.isEmpty then false
    else
      match r1 with
      | '.' :: r2 =>
        match takeDigits r2 with
        | (b, r3) =>
          if b.isEmpty then false
          else
            match r3 with
            | '.' :: r4 =>
              match takeDigits r4 with
              | (c, r5) =>
                if c.isEmpty then false else (r5.isEmpty || r5 = ['\n'])
            | _ => false
      | _ => false

/-- Python `str(v)` for an optional string value (`str(None) = "None"`). -/
def pyStr (v : Option Str) : Str :=
  match v with
  | none => "None".data
  | some s => s

/-- Dict lookup that flattens absence and stored null to `none`
(a present key whose stored value is null yields `some none` in `lookupA`). -/
def getV (m : Meta) (k : Str) : Option Str := (lookupA m k).getD none

/-- The status enumeration of `validate_frontmatter`. -/
def valid_statuses : List Str := ["active".data, "deprecated".data, "frozen".data]

/-- The contract-type enumeration of `validate_frontmatter`. -/
def valid_types : List Str :=
  ["policy".data, "intent".data, "execution_contract".data]

/-- Membership of an optional value in an enumeration of strings (`x in xs`
where `x` may be Python `None`). -/
def memEnum (v : Option Str) (xs : List Str) : Bool :=
  match v with
  | some s => decide (s ∈ xs)
  | none => false

/-- `DocRegistryBuilder.validate_frontmatter`: `none` when the mapping is
valid, otherwise the single diagnostic the Python code appends before
returning `False`.  Checks run in source order: missing fields, then semver
shape, then status, then contract type. -/
def validate_frontmatter (m : Meta) (path : Str) : Option ErrMsg :=
  let missing := required_fields.filter fun f => (lookupA m f).isNone
  if ¬ missing.isEmpty then some (ErrMsg.missingFields path missing)
  else if ¬ semverMatch (pyStr (getV m "semver".data)) then
    some (ErrMsg.badSemver path (pyStr (getV m "semver".data)))
  else if ¬ memEnum (getV m "status".data) valid_statuses then
    some (ErrMsg.badStatus path (getV m "status".data))
  else if ¬ memEnum (getV m "contract_type".data) valid_types then
    some (ErrMsg.badContractType path (getV m "contract_type".data))
  else none

/-- `DocumentRecord`, with optional fields exactly where the Python values
can be `None`. -/
structure DocumentRecord where
  doc_key : Option Str
  path : Str
  semver : Option Str
  status : Option Str
  effective_date : Option Str
  owner : Option Str
  contract_type : Option Str
  supersedes_version : Option Str
deriving DecidableEq, Inhabited

/-- The record built from a validated mapping in `scan_documents`. -/
def mkRecord (path : Str) (m : Meta) : DocumentRecord where
  doc_key := getV m "doc_key".data
  path := path
  semver := getV m "semver".data
  status := getV m "status".data
  effective_date := getV m "effective_date".data
  owner := getV m "owner".data
  contract_type := getV m "contract_type".data
  supersedes_version := getV m "supersedes_version".data

/-- The builder's mutable state: registry, duplicate tuples, diagnostics and
the running count returned by `scan_documents`. -/
structure BState where
  registry : List (RKey × DocumentRecord)
  duplicates : List (RKey × Str × Str)
  errors : List ErrMsg
  count : Nat
deriving DecidableEq

/-- The initial state of a fresh `DocRegistryBuilder`. -/
def initB : BState := ⟨[], [], [], 0⟩

/-- The body of the `scan_documents` loop for one discovered file. -/
def stepB (s : BState) (d : MdFile) : BState :=
  match d.content with
  | none => { s with errors := s.errors ++ [ErrMsg.cantRead d.path] }
  | some c =>
    match extractMeta c with
    | none => s
    | some m =>
      if (lookupA m "doc_key".data).isNone then s
      else
        match validate_frontmatter m d.path with
        | some e => { s with errors := s.errors ++ [e] }
        | none =>
          let k := getV m "doc_key".data
          match lookupA s.registry k with
          | some existing =>
            { s with duplicates := s.duplicates ++ [(k, existing.path, d.path)] }
          | none =>
            { s with
              registry := s.registry ++ [(k, mkRecord d.path m)],
              count := s.count + 1 }

/-- `DocRegistryBuilder.scan_documents`, as a fold over the discovered files
in traversal order. -/
def scan_documents (docs : List MdFile) : BState := docs.foldl stepB initB

/-- `DocRegistryBuilder.report_status`: success exactly when there are
neither duplicates nor errors. -/
def report_status (s : BState) : Bool :=
  if ¬ s.duplicates.isEmpty then false
  else if ¬ s.errors.isEmpty then false
  else true

/-- The key order lifted to registry entries. -/
def recLE (p q : RKey × DocumentRecord) : Prop := keyLE p.1 q.1 = true

instance : DecidableRel recLE := fun p q =>
  inferInstanceAs (Decidable (keyLE p.1 q.1 = true))

/-- `DocRegistryBuilder.save_registry`: the persisted JSON is the registry
mapping sorted by key; field order inside each record is the fixed dataclass
order, so the serialized bytes are determined by this sorted association
list. -/
def save_registry (s : BState) : List (RKey × DocumentRecord) :=
  s.registry.insertionSort recLE

/-- The `main` entry point: scan, report, optionally persist, exit.  Returns
the process exit code and the persisted registry (or `none` when nothing was
written). -/
def mainRun (docs : List MdFile) (check_only : Bool) :
    Nat × Option (List (RKey × DocumentRecord)) :=
  let builder := scan_documents docs
  let success := report_status builder
  ((if success then 0 else 1),
   if success ∧ ¬ check_only then some (save_registry builder) else none)

end DocRegistryBuilder

namespace DocumentVersionExtractor

/-- One line of the lenient extractor's loop: split the raw line at the first
colon, strip the key, strip the value and then strip ALL leading/trailing
double quotes and then all single quotes, coerce nulls. -/
def lineParse (line : Str) : Option (Str × Option Str) :=
  match splitColon line with
  | none => none
  | some (k, v) =>
    some (trim k, coerceNull (stripCh squote (stripCh '"' (trim v))))

/-- One iteration of the extractor's metadata fold. -/
def updLine (m : Meta) (line : Str) : Meta :=
  match lineParse line with
  | none => m
  | some (k, v) => updAssoc m k v

/-- The lenient parse of a readable file's content. -/
def extractMeta (c : Str) : Option Meta :=
  match headerLines c with
  | none => none
  | some lines =>
    let m := lines.foldl updLine []
    if m.isEmpty then none else some m

/-- `DocumentVersionExtractor.extract_frontmatter`: a read failure is
silently treated as "no header". -/
def extract_frontmatter (content : Option Str) : Option Meta :=
  match content with
  | none => none
  | some c => extractMeta c

/-- `DocumentVersion`, the lighter-weight record (dataclass field order). -/
structure DocumentVersion where
  doc_key : Option Str
  semver : Option Str
  status : Option Str
  effective_date : Option Str
  contract_type : Option Str
  path : Str
deriving DecidableEq, Inhabited

/-- The reduced required-field set of the extractor. -/
def requiredMin : List Str :=
  ["doc_key".data, "semver".data, "status".data,
   "effective_date".data, "contract_type".data]

/-- `metadata.get(k)` flattened (absence and stored null both give `none`). -/
def getV (m : Meta) (k : Str) : Option Str := (lookupA m k).getD none

/-- The record built in the extractor's `scan_documents`. -/
def mkVersion (path : Str) (m : Meta) : DocumentVersion where
  doc_key := getV m "doc_key".data
  semver := getV m "semver".data
  status := getV m "status".data
  effective_date := getV m "effective_date".data
  contract_type := getV m "contract_type".data
  path := path

/-- The extractor's state: the last-seen-wins versions dict and the count of
qualifying document occurrences returned by `scan_documents`. -/
structure EState where
  versions : List (RKey × DocumentVersion)
  count : Nat
deriving DecidableEq

/-- `if status_filter and metadata.get('status') != status_filter`. -/
def filteredOut (filter : Option Str) (m : Meta) : Bool :=
  match filter with
  | some f => !f.isEmpty && decide (getV m "status".data ≠ some f)
  | none => false

/-- The body of the extractor's scan loop for one discovered file. -/
def stepE (filter : Option Str) (s : EState) (d : MdFile) : EState :=
  match extract_frontmatter d.content with
  | none => s
  | some m =>
    if (lookupA m "doc_key".data).isNone then s
    else if filteredOut filter m then s
    else if requiredMin.all fun f => (lookupA m f).isSome then
      { versions := updAssoc s.versions (getV m "doc_key".data) (mkVersion d.path m),
        count := s.count + 1 }
    else s

/-- `DocumentVersionExtractor.scan_documents` as a fold over the discovered
files in traversal order. -/
def scan_documents (filter : Option Str) (docs : List MdFile) : EState :=
  docs.foldl (stepE filter) ⟨[], 0⟩

/-- `dataclasses.asdict` of a `DocumentVersion` (field order fixed). -/
def asdictDV (v : DocumentVersion) : List (Str × Option Str) :=
  [("doc_key".data, v.doc_key), ("semver".data, v.semver),
   ("status".data, v.status), ("effective_date".data, v.effective_date),
   ("contract_type".data, v.contract_type), ("path".data, some v.path)]

/-- `DocumentVersionExtractor.to_dict`: key to the full record fields. -/
def to_dict (versions : List (RKey × DocumentVersion)) :
    List (RKey × List (Str × Option Str)) :=
  versions.map fun p => (p.1, asdictDV p.2)

/-- `DocumentVersionExtractor.to_simple_dict`: key to the semver only. -/
def to_simple_dict (versions : List (RKey × DocumentVersion)) :
    List (RKey × Option Str) :=
  versions.map fun p => (p.1, p.2.semver)

end DocumentVersionExtractor

namespace PipelineRunManager

/-- JSON scalar-or-flat-object values appearing in run metadata and ledger
events. -/
inductive JVal where
  | jstr (s : Str)
  | jbool (b : Bool)
  | jnum (n : Nat)
  | jmap (fields : List (RKey × Option Str))
  | jmap2 (fields : List (RKey × List (Str × Option Str)))
deriving DecidableEq

/-- The on-disk state of one run: the metadata object and the append-only
ledger (one flat JSON object per line). -/
structure RunState where
  metadata : List (Str × JVal)
  ledger : List (List (Str × JVal))
deriving DecidableEq

/-- The snapshot object built by `capture_policy_snapshot` (dict key order). -/
structure PolicySnapshot where
  run_id : Str
  timestamp : Str
  active_policies : List (RKey × Option Str)
  policy_count : Nat
  full_details : List (RKey × List (Str × Option Str))
deriving DecidableEq

/-- `PipelineRunManager.capture_policy_snapshot`: scan with the `active`
status filter and package the extractor's two views plus its count. -/
def capture_policy_snapshot (runId now : Str) (docs : List MdFile) :
    PolicySnapshot :=
  let ex := DocumentVersionExtractor.scan_documents (some "active".data) docs
  { run_id := runId, timestamp := now,
    active_policies := DocumentVersionExtractor.to_simple_dict ex.versions,
    policy_count := ex.count,
    full_details := DocumentVersionExtractor.to_dict ex.versions }

/-- The ledger line appended for a policy snapshot. -/
def snapshotEvent (snap : PolicySnapshot) : List (Str × JVal) :=
  [("run_id".data, JVal.jstr snap.run_id),
   ("timestamp".data, JVal.jstr snap.timestamp),
   ("event".data, JVal.jstr "policy_snapshot".data),
   ("active_policies".data, JVal.jmap snap.active_policies),
   ("policy_count".data, JVal.jnum snap.policy_count),
   ("full_details".data, JVal.jmap2 snap.full_details)]

/-- `PipelineRunManager.initialize_run`: capture a snapshot, append it to the
(fresh) ledger and write the four-field metadata object. -/
def initialize_run (runId now : Str) (docs : List MdFile) : RunState :=
  let snap := capture_policy_snapshot runId now docs
  { metadata :=
      [("run_id".data, JVal.jstr runId),
       ("start_time".data, JVal.jstr now),
       ("policies_in_force".data, JVal.jmap snap.active_policies),
       ("policy_count".data, JVal.jnum snap.policy_count)],
    ledger := [snapshotEvent snap] }

/-- `PipelineRunManager.finalize_run`: re-read the metadata, stamp end time
and success flag, rewrite it, and append a completion event to the ledger. -/
def finalize_run (runId now : Str) (ok : Bool) (st : RunState) : RunState :=
  let md := updAssoc (updAssoc st.metadata "end_time".data (JVal.jstr now))
      "success".data (JVal.jbool ok)
  { metadata := md,
    ledger := st.ledger ++
      [[("run_id".data, JVal.jstr runId),
        ("timestamp".data, JVal.jstr now),
        ("event".data, JVal.jstr "run_complete".data),
        ("success".data, JVal.jbool ok)]] }

end PipelineRunManager

/-! ### Specification-side definitions

The following definitions transcribe the wording of the specification /
claims (not the code); they exist to be compared with the code-derived
definitions above. -/

/-- Quote characters recognized by the header grammar. -/
def isQuote (c : Char) : Bool := c = '"' || c = squote

/-- Spec wording: the value "is wrapped in a single layer of matching single
or double quotes" (it starts and ends with the same quote character). -/
def specWrapped (t : Str) : Bool :=
  match t.head?, t.getLast? with
  | some a, some b => isQuote a && a = b
  | _, _ => false

/-- Spec wording: the resulting value is, case-insensitively, the literal
`null`, the tilde character, or the empty string. -/
def specNull (u : Str) : Bool :=
  decide (lowerS u ∈ ["null".data, ['~'], ([] : Str)])

/-- The header-line rule exactly as the claim states it: split on the first
colon, trim key and value, strip exactly one layer of quotes only when the
value is wrapped in a single matching layer, store an explicit null for the
null literals. -/
def specLineParse (line : Str) : Option (Str × Option Str) :=
  (splitColon line).map fun p =>
    let t := trim p.2
    let u := if specWrapped t then (t.drop 1).dropLast else t
    (trim p.1, if specNull u then none else some u)

/-- Claim wording for the accepted semver shape: one or more digits, a dot,
one or more digits, a dot, one or more digits — and nothing else. -/
def specSemverShape (s : Str) : Bool :=
  match splitChar '.' s with
  | [a, b, c] =>
    !a.isEmpty && !b.isEmpty && !c.isEmpty &&
      a.all Char.isDigit && b.all Char.isDigit && c.all Char.isDigit
  | _ => false

/-- No quote character at either end of the string. -/
def noQuoteEnds (u : Str) : Bool :=
  (match u.head? with | some c => !isQuote c | none => true) &&
    (match u.getLast? with | some c => !isQuote c | none => true)

/-- A trimmed header value on which one-layer quote stripping and
strip-all-quote-characters agree: no quote character at either end, or
wrapped in one matching layer whose interior has no quote character at
either end. -/
def benignVal (t : Str) : Bool :=
  noQuoteEnds t ||
    (2 ≤ t.length && specWrapped t && noQuoteEnds ((t.drop 1).dropLast))

/-- A header line whose value (if any) is benign (see `benignVal`). -/
def benignLine (line : Str) : Bool :=
  match splitColon line with
  | none => true
  | some p => benignVal (trim p.2)

/-- A document all of whose header lines are benign. -/
def benignContent (c : Str) : Bool :=
  match headerLines c with
  | none => true
  | some lines => lines.all benignLine

namespace DocumentVersionExtractor

/-- Classifier for one file in the extractor's scan: `some (key, record)`
when the file qualifies (parses, has `doc_key`, passes the status filter and
the reduced required-field check), `none` when the scan skips it. -/
def qualE (filter : Option Str) (d : MdFile) :
    Option (RKey × DocumentVersion) :=
  match extract_frontmatter d.content with
  | none => none
  | some m =>
    if (lookupA m "doc_key".data).isNone then none
    else if filteredOut filter m then none
    else if requiredMin.all fun f => (lookupA m f).isSome then
      some (getV m "doc_key".data, mkVersion d.path m)
    else none

end DocumentVersionExtractor

namespace DocRegistryBuilder

/-- Classifier for one file in the builder's scan: `some (key, record)` when
the file contributes a registry entry or duplicate report (parses, has
`doc_key`, validates), `none` when the scan skips it (possibly after
recording diagnostics). -/
def procDoc (d : MdFile) : Option (RKey × DocumentRecord) :=
  match d.content with
  | none => none
  | some c =>
    match extractMeta c with
    | none => none
    | some m =>
      if (lookupA m "doc_key".data).isNone then none
      else
        match validate_frontmatter m d.path with
        | some _ => none
        | none => some (getV m "doc_key".data, mkRecord d.path m)

/-- The diagnostics one file appends to `self.errors` during the scan. -/
def docErrs (d : MdFile) : List ErrMsg :=
  match d.content with
  | none => [ErrMsg.cantRead d.path]
  | some c =>
    match extractMeta c with
    | none => []
    | some m =>
      if (lookupA m "doc_key".data).isNone then []
      else
        match validate_frontmatter m d.path with
        | some e => [e]
        | none => []

/-- The documents whose parsed-and-validated header claims key `k`. -/
def claimants (k : RKey) (docs : List MdFile) : List MdFile :=
  docs.filter fun d => (procDoc d).map Prod.fst = some k

/-- The duplicate tuples recorded for key `k`. -/
def dupsAt (k : RKey) (s : BState) : List (RKey × Str × Str) :=
  s.duplicates.filter fun t => t.1 = k

end DocRegistryBuilder

/-! ### Concrete example documents (used by witnesses) -/

/-- A well-formed versioned document header claiming `doc_key: a`. -/
def exHeaderA : Str :=
  ("---\ndoc_key: a\nsemver: 1.0.0\nstatus: active\neffective_date: x\n" ++
    "owner: o\ncontract_type: policy\n---\nbody").data

/-- The front-matter mapping `exHeaderA` parses to. -/
def exMetaA : Meta :=
  [("doc_key".data, some "a".data), ("semver".data, some "1.0.0".data),
   ("status".data, some "active".data), ("effective_date".data, some "x".data),
   ("owner".data, some "o".data), ("contract_type".data, some "policy".data)]

/-- The same header with a malformed two-component semver. -/
def exHeaderBad : Str :=
  ("---\ndoc_key: a\nsemver: 1.0\nstatus: active\neffective_date: x\n" ++
    "owner: o\ncontract_type: policy\n---\nbody").data

/-- The front-matter mapping `exHeaderBad` parses to. -/
def exMetaBad : Meta :=
  [("doc_key".data, some "a".data), ("semver".data, some "1.0".data),
   ("status".data, some "active".data), ("effective_date".data, some "x".data),
   ("owner".data, some "o".data), ("contract_type".data, some "policy".data)]

/-- First valid claimant of `doc_key: a`. -/
def exDoc1 : MdFile := ⟨"p1".data, some exHeaderA⟩

/-- Second valid claimant of `doc_key: a`. -/
def exDoc2 : MdFile := ⟨"p2".data, some exHeaderA⟩

/-- An invalid (bad semver) second claimant of `doc_key: a`. -/
def exDocBad : MdFile := ⟨"p2".data, some exHeaderBad⟩

/-- A well-formed versioned document header claiming `doc_key: b`. -/
def exHeaderB : Str :=
  ("---\ndoc_key: b\nsemver: 2.0.0\nstatus: active\neffective_date: x\n" ++
    "owner: o\ncontract_type: policy\n---\nbody").data

/-- A valid claimant of `doc_key: b`. -/
def exDocB : MdFile := ⟨"p3".data, some exHeaderB⟩

/-- A header whose value is wrapped in two layers of double quotes. -/
def exQuotedContent : Str := "---\nk: \"\"a\"\"\n---\nbody".data

/-- A header line whose value is wrapped in two layers of double quotes. -/
def exQuotedLine : Str := "k: \"\"a\"\"".data


/-! ### Association-list lemmas -/

theorem lookupA_map_val {κ ν μ : Type} [DecidableEq κ] (f : ν → μ)
    (l : List (κ × ν)) (k : κ) :
    lookupA (l.map fun p => (p.1, f p.2)) k = (lookupA l k).map f := by
  induction l with
  | nil => rfl
  | cons p t ih =>
    by_cases h : p.1 = k <;> simp [lookupA, h, ih]

theorem lookupA_updAssoc_self {κ ν : Type} [DecidableEq κ]
    (m : List (κ × ν)) (k : κ) (v : ν) : lookupA (updAssoc m k v) k = some v := by
  induction m with
  | nil => simp [updAssoc, lookupA]
  | cons p t ih =>
    by_cases h : p.1 = k <;> simp [updAssoc, lookupA, h, ih]

theorem lookupA_updAssoc_ne {κ ν : Type} [DecidableEq κ]
    (m : List (κ × ν)) (k k' : κ) (v : ν) (h : k' ≠ k) :
    lookupA (updAssoc m k v) k' = lookupA m k' := by
  induction m with
  | nil =>
    simp only [updAssoc, lookupA]
    rw [if_neg fun h2 => h h2.symm]
  | cons p t ih =>
    by_cases hp : p.1 = k
    · subst hp
      simp only [updAssoc, if_pos rfl, lookupA]
      rw [if_neg fun h2 => h h2.symm, if_neg fun h2 => h h2.symm]
    · simp only [updAssoc, if_neg hp]
      by_cases hq : p.1 = k' <;> simp [lookupA, hq, ih]

theorem mem_keys_of_lookupA {κ ν : Type} [DecidableEq κ]
    {m : List (κ × ν)} {k : κ} {v : ν} (h : lookupA m k = some v) :
    k ∈ m.map Prod.fst := by
  induction m with
  | nil => simp [lookupA] at h
  | cons p t ih =>
    by_cases hp : p.1 = k
    · simp [hp.symm]
    · simp only [lookupA, if_neg hp] at h
      simp [ih h]

theorem lookupA_eq_none_of_not_mem {κ ν : Type} [DecidableEq κ]
    {m : List (κ × ν)} {k : κ} (h : k ∉ m.map Prod.fst) :
    lookupA m k = none := by
  induction m with
  | nil => rfl
  | cons p t ih =>
    simp only [List.map_cons, List.mem_cons] at h
    push_neg at h
    simp only [lookupA]
    rw [if_neg fun he => h.1 he.symm]
    exact ih h.2

theorem updAssoc_keys_of_mem {κ ν : Type} [DecidableEq κ]
    (m : List (κ × ν)) (k : κ) (v : ν) (h : k ∈ m.map Prod.fst) :
    (updAssoc m k v).map Prod.fst = m.map Prod.fst := by
  induction m with
  | nil => simp at h
  | cons p t ih =>
    by_cases hp : p.1 = k
    · simp [updAssoc, hp]
    · simp only [List.map_cons, List.mem_cons] at h
      rcases h with h | h
      · exact absurd h.symm hp
      · simp [updAssoc, hp, ih h]

theorem updAssoc_keys_of_not_mem {κ ν : Type} [DecidableEq κ]
    (m : List (κ × ν)) (k : κ) (v : ν) (h : k ∉ m.map Prod.fst) :
    (updAssoc m k v).map Prod.fst = m.map Prod.fst ++ [k] := by
  induction m with
  | nil => simp [updAssoc]
  | cons p t ih =>
    simp only [List.map_cons, List.mem_cons] at h
    push_neg at h
    simp only [updAssoc]
    rw [if_neg fun he => h.1 he.symm]
    simp [ih h.2]

/-! ### Claim C2 -/

theorem report_status_eq_true (s : DocRegistryBuilder.BState) :
    DocRegistryBuilder.report_status s = true ↔
      s.duplicates = [] ∧ s.errors = [] := by
  unfold DocRegistryBuilder.report_status
  by_cases h1 : s.duplicates.isEmpty <;> by_cases h2 : s.errors.isEmpty <;>
    simp_all [List.isEmpty_iff]

/-- Claim C2: the build/check entry point exits with status zero iff, after
the scan, both the duplicates list and the errors list are empty; and the
registry JSON is written iff that success condition holds and check-only
mode was not requested. -/
theorem C2_exit_status_and_persistence (docs : List MdFile) (check_only : Bool) :
    ((DocRegistryBuilder.mainRun docs check_only).1 = 0 ↔
      (DocRegistryBuilder.scan_documents docs).duplicates = [] ∧
        (DocRegistryBuilder.scan_documents docs).errors = []) ∧
    ((DocRegistryBuilder.mainRun docs check_only).2 ≠ none ↔
      ((DocRegistryBuilder.scan_documents docs).duplicates = [] ∧
        (DocRegistryBuilder.scan_documents docs).errors = []) ∧
        check_only = false) := by
  have h := report_status_eq_true (DocRegistryBuilder.scan_documents docs)
  unfold DocRegistryBuilder.mainRun
  by_cases hs : DocRegistryBuilder.report_status
      (DocRegistryBuilder.scan_documents docs) = true
  · rcases h.mp hs with ⟨h1, h2⟩
    cases check_only <;> simp_all
  · have : ¬ ((DocRegistryBuilder.scan_documents docs).duplicates = [] ∧
        (DocRegistryBuilder.scan_documents docs).errors = []) := fun hc =>
      hs (h.mpr hc)
    cases check_only <;> simp_all

/-! ### Claim C6 -/

/-- Claim C6: the simple key-to-semver mapping has exactly the same key set
as the full detail mapping, and for every key its value is the `semver`
field of the corresponding full `DocumentVersion` record. -/
theorem C6_simple_dict_projection
    (versions : List (RKey × DocumentVersionExtractor.DocumentVersion)) :
    (DocumentVersionExtractor.to_dict versions).map Prod.fst =
      (DocumentVersionExtractor.to_simple_dict versions).map Prod.fst ∧
    ∀ k : RKey,
      lookupA (DocumentVersionExtractor.to_simple_dict versions) k =
        (lookupA versions k).map DocumentVersionExtractor.DocumentVersion.semver := by
  constructor
  · simp [DocumentVersionExtractor.to_dict, DocumentVersionExtractor.to_simple_dict]
  · intro k
    exact lookupA_map_val DocumentVersionExtractor.DocumentVersion.semver versions k

/-! ### Further association-list lemmas -/

theorem updAssoc_mem_keys {κ ν : Type} [DecidableEq κ]
    (m : List (κ × ν)) (k : κ) (v : ν) (k' : κ) :
    k' ∈ (updAssoc m k v).map Prod.fst ↔ k' ∈ m.map Prod.fst ∨ k' = k := by
  by_cases h : k ∈ m.map Prod.fst
  · rw [updAssoc_keys_of_mem _ _ _ h]
    constructor
    · exact Or.inl
    · rintro (hk | rfl)
      · exact hk
      · exact h
  · rw [updAssoc_keys_of_not_mem _ _ _ h]
    simp

theorem updAssoc_keys_nodup {κ ν : Type} [DecidableEq κ]
    (m : List (κ × ν)) (k : κ) (v : ν) (h : (m.map Prod.fst).Nodup) :
    ((updAssoc m k v).map Prod.fst).Nodup := by
  by_cases hm : k ∈ m.map Prod.fst
  · rw [updAssoc_keys_of_mem _ _ _ hm]; exact h
  · rw [updAssoc_keys_of_not_mem _ _ _ hm]
    simp [List.nodup_append, h, hm]

/-! ### Claim C8 -/

/-- Claim C8: for a run whose metadata was written at initialization with
fields `run_id, start_time, policies_in_force, policy_count`, finalizing
rewrites the metadata with exactly `end_time` and `success` added, the four
original fields unchanged, and appends exactly one `run_complete` event to
the ledger without modifying any prior ledger line. -/
theorem C8_finalize_frame (runId now : Str) (ok : Bool)
    (st : PipelineRunManager.RunState)
    (h : st.metadata.map Prod.fst =
      ["run_id".data, "start_time".data, "policies_in_force".data,
       "policy_count".data]) :
    (PipelineRunManager.finalize_run runId now ok st).metadata.map Prod.fst =
      ["run_id".data, "start_time".data, "policies_in_force".data,
       "policy_count".data, "end_time".data, "success".data] ∧
    lookupA (PipelineRunManager.finalize_run runId now ok st).metadata
        "run_id".data = lookupA st.metadata "run_id".data ∧
    lookupA (PipelineRunManager.finalize_run runId now ok st).metadata
        "start_time".data = lookupA st.metadata "start_time".data ∧
    lookupA (PipelineRunManager.finalize_run runId now ok st).metadata
        "policies_in_force".data = lookupA st.metadata "policies_in_force".data ∧
    lookupA (PipelineRunManager.finalize_run runId now ok st).metadata
        "policy_count".data = lookupA st.metadata "policy_count".data ∧
    lookupA (PipelineRunManager.finalize_run runId now ok st).metadata
        "end_time".data = some (PipelineRunManager.JVal.jstr now) ∧
    lookupA (PipelineRunManager.finalize_run runId now ok st).metadata
        "success".data = some (PipelineRunManager.JVal.jbool ok) ∧
    (PipelineRunManager.finalize_run runId now ok st).ledger =
      st.ledger ++
        [[("run_id".data, PipelineRunManager.JVal.jstr runId),
          ("timestamp".data, PipelineRunManager.JVal.jstr now),
          ("event".data, PipelineRunManager.JVal.jstr "run_complete".data),
          ("success".data, PipelineRunManager.JVal.jbool ok)]] ∧
    (PipelineRunManager.finalize_run runId now ok st).ledger.take
        st.ledger.length = st.ledger := by
  have hne1 : "end_time".data ∉ st.metadata.map Prod.fst := by
    rw [h]; decide
  have hk1 := updAssoc_keys_of_not_mem st.metadata "end_time".data
    (PipelineRunManager.JVal.jstr now) hne1
  have hne2 : "success".data ∉
      (updAssoc st.metadata "end_time".data
        (PipelineRunManager.JVal.jstr now)).map Prod.fst := by
    rw [hk1, h]; decide
  have hk2 := updAssoc_keys_of_not_mem _ "success".data
    (PipelineRunManager.JVal.jbool ok) hne2
  unfold PipelineRunManager.finalize_run
  refine ⟨?_, ?_, ?_, ?_, ?_, ?_, ?_, rfl, ?_⟩
  · show (updAssoc (updAssoc st.metadata _ _) _ _).map Prod.fst = _
    rw [hk2, hk1, h]
    rfl
  · show lookupA (updAssoc (updAssoc st.metadata _ _) _ _) _ = _
    rw [lookupA_updAssoc_ne _ _ _ _ (by decide),
      lookupA_updAssoc_ne _ _ _ _ (by decide)]
  · show lookupA (updAssoc (updAssoc st.metadata _ _) _ _) _ = _
    rw [lookupA_updAssoc_ne _ _ _ _ (by decide),
      lookupA_updAssoc_ne _ _ _ _ (by decide)]
  · show lookupA (updAssoc (updAssoc st.metadata _ _) _ _) _ = _
    rw [lookupA_updAssoc_ne _ _ _ _ (by decide),
      lookupA_updAssoc_ne _ _ _ _ (by decide)]
  · show lookupA (updAssoc (updAssoc st.metadata _ _) _ _) _ = _
    rw [lookupA_updAssoc_ne _ _ _ _ (by decide),
      lookupA_updAssoc_ne _ _ _ _ (by decide)]
  · show lookupA (updAssoc (updAssoc st.metadata _ _) _ _) _ = _
    rw [lookupA_updAssoc_ne _ _ _ _ (by decide)]
    exact lookupA_updAssoc_self _ _ _
  · exact lookupA_updAssoc_self _ _ _
  · show (st.ledger ++ _).take st.ledger.length = st.ledger
    exact List.take_left st.ledger _

/-- Witness for C8 at a concrete initialized run (empty document tree). -/
theorem C8_finalize_frame_witness :
    lookupA (PipelineRunManager.finalize_run "r1".data "t1".data true
        (PipelineRunManager.initialize_run "r1".data "t0".data [])).metadata
      "end_time".data = some (PipelineRunManager.JVal.jstr "t1".data) ∧
    (PipelineRunManager.finalize_run "r1".data "t1".data true
        (PipelineRunManager.initialize_run "r1".data "t0".data [])).metadata.map
      Prod.fst =
      ["run_id".data, "start_time".data, "policies_in_force".data,
       "policy_count".data, "end_time".data, "success".data] := by
  have h := C8_finalize_frame "r1".data "t1".data true
    (PipelineRunManager.initialize_run "r1".data "t0".data []) (by decide)
  exact ⟨h.2.2.2.2.2.1, h.1⟩

/-! ### Claim C10 -/

namespace DocumentVersionExtractor

theorem stepE_of_qualE_none (filter : Option Str) (s : EState) (d : MdFile)
    (h : qualE filter d = none) : stepE filter s d = s := by
  unfold qualE at h
  unfold stepE
  cases hc : extract_frontmatter d.content with
  | none => rfl
  | some m =>
    rw [hc] at h
    dsimp only at h ⊢
    split_ifs at h ⊢ <;> rfl

theorem stepE_of_qualE_some (filter : Option Str) (s : EState) (d : MdFile)
    (k : RKey) (v : DocumentVersion) (h : qualE filter d = some (k, v)) :
    stepE filter s d = ⟨updAssoc s.versions k v, s.count + 1⟩ := by
  unfold qualE at h
  unfold stepE
  cases hc : extract_frontmatter d.content with
  | none => rw [hc] at h; exact absurd h (by simp)
  | some m =>
    rw [hc] at h
    dsimp only at h ⊢
    by_cases h1 : (lookupA m "doc_key".data).isNone = true
    · rw [if_pos h1] at h; exact absurd h (by simp)
    · rw [if_neg h1] at h ⊢
      by_cases h2 : DocumentVersionExtractor.filteredOut filter m = true
      · rw [if_pos h2] at h; exact absurd h (by simp)
      · rw [if_neg h2] at h ⊢
        by_cases h3 : (DocumentVersionExtractor.requiredMin.all
            fun f => (lookupA m f).isSome) = true
        · rw [if_pos h3] at h ⊢
          injection h with h5
          have h6 := congrArg Prod.fst h5
          have h7 := congrArg Prod.snd h5
          dsimp only at h6 h7
          subst h6
          subst h7
          rfl
        · rw [if_neg h3] at h; exact absurd h (by simp)

theorem scan_count_fold (filter : Option Str) :
    ∀ (docs : List MdFile) (s : EState),
      (docs.foldl (stepE filter) s).count =
        s.count + (docs.filterMap (qualE filter)).length := by
  intro docs
  induction docs with
  | nil => intro s; simp
  | cons d t ih =>
    intro s
    cases hq : qualE filter d with
    | none =>
      rw [List.foldl_cons, stepE_of_qualE_none _ _ _ hq, ih]
      simp [List.filterMap_cons, hq]
    | some p =>
      rw [List.foldl_cons, stepE_of_qualE_some _ _ _ p.1 p.2 (by rw [hq]), ih]
      simp [List.filterMap_cons, hq]
      omega

theorem scan_keys_fold (filter : Option Str) :
    ∀ (docs : List MdFile) (s : EState),
      (s.versions.map Prod.fst).Nodup →
      (((docs.foldl (stepE filter) s).versions.map Prod.fst).Nodup ∧
        ∀ k, k ∈ (docs.foldl (stepE filter) s).versions.map Prod.fst ↔
          (k ∈ s.versions.map Prod.fst ∨
            k ∈ (docs.filterMap (qualE filter)).map Prod.fst)) := by
  intro docs
  induction docs with
  | nil =>
    intro s hs
    refine ⟨hs, fun k => ?_⟩
    simp only [List.foldl_nil, List.filterMap_nil, List.map_nil,
      List.not_mem_nil, or_false]
  | cons d t ih =>
    intro s hs
    cases hq : qualE filter d with
    | none =>
      rw [List.foldl_cons, stepE_of_qualE_none _ _ _ hq]
      have h2 := ih s hs
      refine ⟨h2.1, fun k => ?_⟩
      rw [h2.2 k]
      simp only [List.filterMap_cons, hq]
    | some p =>
      rw [List.foldl_cons, stepE_of_qualE_some _ _ _ p.1 p.2 (by rw [hq])]
      have h2 := ih ⟨updAssoc s.versions p.1 p.2, s.count + 1⟩
        (updAssoc_keys_nodup _ _ _ hs)
      refine ⟨h2.1, fun k => ?_⟩
      rw [h2.2 k]
      show k ∈ (updAssoc s.versions p.1 p.2).map Prod.fst ∨ _ ↔ _
      rw [updAssoc_mem_keys]
      simp only [List.filterMap_cons, hq, List.map_cons, List.mem_cons]
      tauto

theorem scan_versions_length (filter : Option Str) (docs : List MdFile) :
    (scan_documents filter docs).versions.length =
      ((docs.filterMap (qualE filter)).map Prod.fst).dedup.length := by
  unfold scan_documents
  have h := scan_keys_fold filter docs ⟨[], 0⟩ (by simp)
  have hmem : ∀ k,
      k ∈ (docs.foldl (stepE filter) ⟨[], 0⟩).versions.map Prod.fst ↔
        k ∈ (docs.filterMap (qualE filter)).map Prod.fst := by
    intro k
    rw [h.2 k]
    simp only [List.map_nil, List.not_mem_nil, false_or]
  have hfin :
      ((docs.foldl (stepE filter) ⟨[], 0⟩).versions.map Prod.fst).toFinset =
        ((docs.filterMap (qualE filter)).map Prod.fst).toFinset := by
    ext k
    simp only [List.mem_toFinset]
    exact hmem k
  calc (docs.foldl (stepE filter) ⟨[], 0⟩).versions.length
      = ((docs.foldl (stepE filter) ⟨[], 0⟩).versions.map Prod.fst).length :=
        (List.length_map _ _).symm
    _ = ((docs.foldl (stepE filter) ⟨[], 0⟩).versions.map
          Prod.fst).dedup.length := by
        rw [List.dedup_eq_self.mpr h.1]
    _ = ((docs.foldl (stepE filter) ⟨[], 0⟩).versions.map
          Prod.fst).toFinset.card := (List.card_toFinset _).symm
    _ = ((docs.filterMap (qualE filter)).map Prod.fst).toFinset.card := by
        rw [hfin]
    _ = ((docs.filterMap (qualE filter)).map Prod.fst).dedup.length :=
        List.card_toFinset _

end DocumentVersionExtractor

/-! ### Builder scan classification lemmas -/

namespace DocRegistryBuilder

theorem stepB_of_procDoc_none (s : BState) (d : MdFile)
    (h : procDoc d = none) :
    stepB s d =
      { s with errors := s.errors ++ docErrs d } := by
  unfold procDoc at h
  unfold stepB docErrs
  cases hc : d.content with
  | none => rfl
  | some c =>
    rw [hc] at h
    dsimp only at h ⊢
    cases hm : extractMeta c with
    | none =>
      dsimp only
      simp
    | some m =>
      rw [hm] at h
      dsimp only at h ⊢
      by_cases h1 : (lookupA m "doc_key".data).isNone = true
      · rw [if_pos h1, if_pos h1]
        simp
      · rw [if_neg h1] at h
        rw [if_neg h1, if_neg h1]
        cases hv : validate_frontmatter m d.path with
        | none =>
          rw [hv] at h
          exact absurd h (by simp)
        | some e =>
          dsimp only

theorem stepB_of_procDoc_some_dup (s : BState) (d : MdFile)
    (k : RKey) (r : DocumentRecord) (ex : DocumentRecord)
    (h : procDoc d = some (k, r)) (hx : lookupA s.registry k = some ex) :
    stepB s d =
      { s with duplicates := s.duplicates ++ [(k, ex.path, d.path)] } := by
  unfold procDoc at h
  unfold stepB
  cases hc : d.content with
  | none => rw [hc] at h; exact absurd h (by simp)
  | some c =>
    rw [hc] at h
    dsimp only at h ⊢
    cases hm : extractMeta c with
    | none => rw [hm] at h; exact absurd h (by simp)
    | some m =>
      rw [hm] at h
      dsimp only at h ⊢
      by_cases h1 : (lookupA m "doc_key".data).isNone = true
      · rw [if_pos h1] at h; exact absurd h (by simp)
      · rw [if_neg h1] at h ⊢
        cases hv : validate_frontmatter m d.path with
        | some e => rw [hv] at h; exact absurd h (by simp)
        | none =>
          rw [hv] at h
          dsimp only at h ⊢
          injection h with h5
          have h6 := congrArg Prod.fst h5
          dsimp only at h6
          subst h6
          rw [hx]

theorem stepB_of_procDoc_some_fresh (s : BState) (d : MdFile)
    (k : RKey) (r : DocumentRecord)
    (h : procDoc d = some (k, r)) (hx : lookupA s.registry k = none) :
    stepB s d =
      { s with registry := s.registry ++ [(k, r)], count := s.count + 1 } := by
  unfold procDoc at h
  unfold stepB
  cases hc : d.content with
  | none => rw [hc] at h; exact absurd h (by simp)
  | some c =>
    rw [hc] at h
    dsimp only at h ⊢
    cases hm : extractMeta c with
    | none => rw [hm] at h; exact absurd h (by simp)
    | some m =>
      rw [hm] at h
      dsimp only at h ⊢
      by_cases h1 : (lookupA m "doc_key".data).isNone = true
      · rw [if_pos h1] at h; exact absurd h (by simp)
      · rw [if_neg h1] at h ⊢
        cases hv : validate_frontmatter m d.path with
        | some e => rw [hv] at h; exact absurd h (by simp)
        | none =>
          rw [hv] at h
          dsimp only at h ⊢
          injection h with h5
          have h6 := congrArg Prod.fst h5
          have h7 := congrArg Prod.snd h5
          dsimp only at h6 h7
          subst h6
          subst h7
          rw [hx]

theorem procDoc_path (d : MdFile) (k : RKey) (r : DocumentRecord)
    (h : procDoc d = some (k, r)) : r.path = d.path := by
  unfold procDoc at h
  cases hc : d.content with
  | none => rw [hc] at h; exact absurd h (by simp)
  | some c =>
    rw [hc] at h
    dsimp only at h
    cases hm : extractMeta c with
    | none => rw [hm] at h; exact absurd h (by simp)
    | some m =>
      rw [hm] at h
      dsimp only at h
      by_cases h1 : (lookupA m "doc_key".data).isNone = true
      · rw [if_pos h1] at h; exact absurd h (by simp)
      · rw [if_neg h1] at h
        cases hv : validate_frontmatter m d.path with
        | some e => rw [hv] at h; exact absurd h (by simp)
        | none =>
          rw [hv] at h
          dsimp only at h
          injection h with h5
          have h7 := congrArg Prod.snd h5
          dsimp only at h7
          rw [← h7]
          rfl

end DocRegistryBuilder

theorem lookupA_append {κ ν : Type} [DecidableEq κ]
    (l1 l2 : List (κ × ν)) (k : κ) :
    lookupA (l1 ++ l2) k =
      match lookupA l1 k with
      | some v => some v
      | none => lookupA l2 k := by
  induction l1 with
  | nil => simp [lookupA]
  | cons p t ih =>
    by_cases h : p.1 = k <;> simp [lookupA, h, ih]

theorem lookupA_isSome_of_mem_keys {κ ν : Type} [DecidableEq κ]
    {m : List (κ × ν)} {k : κ} (h : k ∈ m.map Prod.fst) :
    (lookupA m k).isSome = true := by
  induction m with
  | nil => simp at h
  | cons p t ih =>
    simp only [List.map_cons, List.mem_cons] at h
    by_cases hp : p.1 = k
    · simp [lookupA, hp]
    · rcases h with h | h
      · exact absurd h.symm hp
      · simp [lookupA, hp, ih h]

theorem not_mem_keys_of_lookupA_none {κ ν : Type} [DecidableEq κ]
    {m : List (κ × ν)} {k : κ} (h : lookupA m k = none) :
    k ∉ m.map Prod.fst := by
  intro hm
  have := lookupA_isSome_of_mem_keys hm
  rw [h] at this
  exact absurd this (by simp)

namespace DocRegistryBuilder

theorem stepB_dups_mono (s : BState) (d : MdFile) :
    ∃ t, (stepB s d).duplicates = s.duplicates ++ t := by
  cases hq : procDoc d with
  | none =>
    rw [stepB_of_procDoc_none s d hq]
    exact ⟨[], by simp⟩
  | some p =>
    cases hl : lookupA s.registry p.1 with
    | some ex =>
      rw [stepB_of_procDoc_some_dup s d p.1 p.2 ex (by rw [hq]) hl]
      exact ⟨[(p.1, ex.path, d.path)], rfl⟩
    | none =>
      rw [stepB_of_procDoc_some_fresh s d p.1 p.2 (by rw [hq]) hl]
      exact ⟨[], by simp⟩

theorem scan_dups_mono : ∀ (docs : List MdFile) (s : BState),
    ∃ t, (docs.foldl stepB s).duplicates = s.duplicates ++ t := by
  intro docs
  induction docs with
  | nil => intro s; exact ⟨[], by simp⟩
  | cons d t ih =>
    intro s
    obtain ⟨t1, h1⟩ := stepB_dups_mono s d
    obtain ⟨t2, h2⟩ := ih (stepB s d)
    rw [List.foldl_cons]
    exact ⟨t1 ++ t2, by rw [h2, h1, List.append_assoc]⟩

/-- Once a key is registered with record `r`, further scanning never changes
its registry entry, and every later claimant of the key appends exactly one
duplicate tuple naming `r`'s path and its own path. -/
theorem scan_key_stable (k : RKey) (r : DocumentRecord) :
    ∀ (docs : List MdFile) (s : BState),
      lookupA s.registry k = some r →
      lookupA ((docs.foldl stepB s).registry) k = some r ∧
      dupsAt k (docs.foldl stepB s) =
        dupsAt k s ++ (claimants k docs).map fun d => (k, r.path, d.path) := by
  intro docs
  induction docs with
  | nil =>
    intro s hs
    refine ⟨hs, ?_⟩
    simp [claimants]
  | cons d t ih =>
    intro s hs
    rw [List.foldl_cons]
    cases hq : procDoc d with
    | none =>
      rw [stepB_of_procDoc_none s d hq]
      have h2 := ih { s with errors := s.errors ++ docErrs d } hs
      refine ⟨h2.1, ?_⟩
      rw [h2.2]
      have hcl : claimants k (d :: t) = claimants k t := by
        unfold claimants
        rw [List.filter_cons]
        simp [hq]
      rw [hcl]
      rfl
    | some p =>
      by_cases hk : p.1 = k
      · subst hk
        rw [stepB_of_procDoc_some_dup s d p.1 p.2 r (by rw [hq]) hs]
        have h2 := ih
          { s with duplicates := s.duplicates ++ [(p.1, r.path, d.path)] } hs
        refine ⟨h2.1, ?_⟩
        rw [h2.2]
        have hcl : claimants p.1 (d :: t) = d :: claimants p.1 t := by
          unfold claimants
          rw [List.filter_cons]
          simp [hq]
        rw [hcl]
        show dupsAt p.1 _ ++ _ = dupsAt p.1 s ++ _
        unfold dupsAt
        rw [List.filter_append]
        simp [List.append_assoc]
      · cases hl : lookupA s.registry p.1 with
        | some ex =>
          rw [stepB_of_procDoc_some_dup s d p.1 p.2 ex (by rw [hq]) hl]
          have h2 := ih
            { s with duplicates := s.duplicates ++ [(p.1, ex.path, d.path)] } hs
          refine ⟨h2.1, ?_⟩
          rw [h2.2]
          have hcl : claimants k (d :: t) = claimants k t := by
            unfold claimants
            rw [List.filter_cons]
            simp [hq, hk]
          rw [hcl]
          show dupsAt k _ ++ _ = dupsAt k s ++ _
          unfold dupsAt
          rw [List.filter_append]
          simp [hk]
        | none =>
          rw [stepB_of_procDoc_some_fresh s d p.1 p.2 (by rw [hq]) hl]
          have hs2 : lookupA (s.registry ++ [(p.1, p.2)]) k = some r := by
            rw [lookupA_append, hs]
          have h2 := ih
            ⟨s.registry ++ [(p.1, p.2)], s.duplicates, s.errors, s.count + 1⟩ hs2
          refine ⟨h2.1, ?_⟩
          rw [h2.2]
          have hcl : claimants k (d :: t) = claimants k t := by
            unfold claimants
            rw [List.filter_cons]
            simp [hq, hk]
          rw [hcl]
          rfl

/-- Before any claimant of `k` is registered: the first claimant in
traversal order registers its record, and each later claimant reports one
duplicate tuple naming the first claimant's path. -/
theorem scan_key_first (k : RKey) :
    ∀ (docs : List MdFile) (s : BState) (d1 : MdFile) (rest : List MdFile)
      (r1 : DocumentRecord),
      lookupA s.registry k = none →
      claimants k docs = d1 :: rest →
      procDoc d1 = some (k, r1) →
      lookupA ((docs.foldl stepB s).registry) k = some r1 ∧
      dupsAt k (docs.foldl stepB s) =
        dupsAt k s ++ rest.map fun d => (k, r1.path, d.path) := by
  intro docs
  induction docs with
  | nil =>
    intro s d1 rest r1 _ hcl _
    exact absurd hcl (by simp [claimants])
  | cons d t ih =>
    intro s d1 rest r1 hs hcl hr1
    rw [List.foldl_cons]
    by_cases hd : (procDoc d).map Prod.fst = some k
    · unfold claimants at hcl
      rw [List.filter_cons, if_pos (by simpa using hd)] at hcl
      injection hcl with h1 hrest
      subst h1
      rw [stepB_of_procDoc_some_fresh s d k r1 hr1 hs]
      have hs2 : lookupA (s.registry ++ [(k, r1)]) k = some r1 := by
        rw [lookupA_append, hs]
        simp [lookupA]
      have h2 := scan_key_stable k r1 t
        ⟨s.registry ++ [(k, r1)], s.duplicates, s.errors, s.count + 1⟩ hs2
      refine ⟨h2.1, ?_⟩
      have hrest2 : claimants k t = rest := hrest
      rw [h2.2, hrest2]
      rfl
    · cases hq : procDoc d with
      | none =>
        rw [stepB_of_procDoc_none s d hq]
        have hcl2 : claimants k (d :: t) = claimants k t := by
          unfold claimants
          rw [List.filter_cons]
          simp [hq]
        rw [hcl2] at hcl
        exact ih { s with errors := s.errors ++ docErrs d } d1 rest r1 hs hcl hr1
      | some p =>
        have hk : p.1 ≠ k := fun he => hd (by rw [hq]; simpa using he)
        have hcl2 : claimants k (d :: t) = claimants k t := by
          unfold claimants
          rw [List.filter_cons]
          simp [hq, hk]
        rw [hcl2] at hcl
        cases hl : lookupA s.registry p.1 with
        | some ex =>
          rw [stepB_of_procDoc_some_dup s d p.1 p.2 ex (by rw [hq]) hl]
          have h2 := ih
            ⟨s.registry, s.duplicates ++ [(p.1, ex.path, d.path)], s.errors,
              s.count⟩ d1 rest r1 hs hcl hr1
          refine ⟨h2.1, ?_⟩
          rw [h2.2]
          show dupsAt k _ ++ _ = dupsAt k s ++ _
          unfold dupsAt
          rw [List.filter_append]
          simp [hk]
        | none =>
          rw [stepB_of_procDoc_some_fresh s d p.1 p.2 (by rw [hq]) hl]
          have hs2 : lookupA (s.registry ++ [(p.1, p.2)]) k = none := by
            rw [lookupA_append, hs]
            simp [lookupA, hk]
          exact ih
            ⟨s.registry ++ [(p.1, p.2)], s.duplicates, s.errors, s.count + 1⟩
            d1 rest r1 hs2 hcl hr1

end DocRegistryBuilder

/-! ### Structure of the splitting and trimming primitives -/

theorem splitChar_cons_ne (sep c : Char) (t : Str) (h : ¬ c = sep) :
    splitChar sep (c :: t) =
      match splitChar sep t with
      | [] => [[c]]
      | h0 :: r => (c :: h0) :: r := by
  rw [show splitChar sep (c :: t) =
    (if c = sep then [] :: splitChar sep t
     else
       match splitChar sep t with
       | [] => [[c]]
       | h0 :: r => (c :: h0) :: r) from rfl, if_neg h]

theorem splitChar_ne_nil (sep : Char) : ∀ l : Str, splitChar sep l ≠ [] := by
  intro l
  cases l with
  | nil => simp [splitChar]
  | cons c t =>
    unfold splitChar
    by_cases h : c = sep
    · simp [h]
    · rw [if_neg h]
      cases hs : splitChar sep t <;> simp

theorem splitChar_not_mem (sep : Char) :
    ∀ (l : Str), ∀ x ∈ splitChar sep l, sep ∉ x := by
  intro l
  induction l with
  | nil =>
    intro x hx
    simp [splitChar] at hx
    simp [hx]
  | cons c t ih =>
    intro x hx
    unfold splitChar at hx
    by_cases h : c = sep
    · rw [if_pos h] at hx
      rcases List.mem_cons.mp hx with h2 | h2
      · simp [h2]
      · exact ih x h2
    · rw [if_neg h] at hx
      cases hs : splitChar sep t with
      | nil => exact absurd hs (splitChar_ne_nil sep t)
      | cons h0 r =>
        rw [hs] at hx
        rcases List.mem_cons.mp hx with h2 | h2
        · subst h2
          intro hmem
          rcases List.mem_cons.mp hmem with h3 | h3
          · exact h h3.symm
          · exact ih h0 (hs ▸ List.mem_cons_self h0 r) h3
        · exact ih x (hs ▸ List.mem_cons_of_mem h0 h2)

theorem splitChar_reconstruct (sep : Char) :
    ∀ l : Str, intercalateCh sep (splitChar sep l) = l := by
  intro l
  induction l with
  | nil => rfl
  | cons c t ih =>
    unfold splitChar
    by_cases h : c = sep
    · rw [if_pos h]
      cases hs : splitChar sep t with
      | nil => exact absurd hs (splitChar_ne_nil sep t)
      | cons h0 r =>
        show intercalateCh sep ([] :: h0 :: r) = c :: t
        unfold intercalateCh
        rw [show intercalateCh sep (h0 :: r) = t by rw [← hs, ih]]
        simp [h]
    · rw [if_neg h]
      cases hs : splitChar sep t with
      | nil => exact absurd hs (splitChar_ne_nil sep t)
      | cons h0 r =>
        cases r with
        | nil =>
          show intercalateCh sep [c :: h0] = c :: t
          unfold intercalateCh
          have : intercalateCh sep [h0] = t := by rw [← hs, ih]
          unfold intercalateCh at this
          rw [this]
        | cons h1 r2 =>
          show intercalateCh sep ((c :: h0) :: h1 :: r2) = c :: t
          unfold intercalateCh
          have : intercalateCh sep (h0 :: h1 :: r2) = t := by rw [← hs, ih]
          unfold intercalateCh at this
          rw [← this]
          simp

theorem splitChar_no_sep (sep : Char) :
    ∀ x : Str, sep ∉ x → splitChar sep x = [x] := by
  intro x
  induction x with
  | nil => intro _; rfl
  | cons c t ih =>
    intro h
    simp only [List.mem_cons] at h
    push_neg at h
    unfold splitChar
    rw [if_neg fun he => h.1 he.symm, ih h.2]

theorem splitChar_append (sep : Char) :
    ∀ (x y : Str), sep ∉ x →
      splitChar sep (x ++ sep :: y) = x :: splitChar sep y := by
  intro x
  induction x with
  | nil =>
    intro y _
    simp [splitChar]
  | cons c t ih =>
    intro y h
    simp only [List.mem_cons] at h
    push_neg at h
    show splitChar sep (c :: (t ++ sep :: y)) = (c :: t) :: splitChar sep y
    rw [splitChar_cons_ne sep c _ fun he => h.1 he.symm, ih y h.2]

theorem splitColon_structure :
    ∀ (l k v : Str), splitColon l = some (k, v) → l = k ++ ':' :: v ∧ ':' ∉ k := by
  intro l
  induction l with
  | nil => intro k v h; exact absurd h (by simp [splitColon])
  | cons c t ih =>
    intro k v h
    unfold splitColon at h
    by_cases hc : c = ':'
    · rw [if_pos hc] at h
      injection h with h2
      have hk := congrArg Prod.fst h2
      have hv := congrArg Prod.snd h2
      dsimp only at hk hv
      subst hk
      subst hv
      simp [hc]
    · rw [if_neg hc] at h
      cases hs : splitColon t with
      | none => rw [hs] at h; exact absurd h (by simp)
      | some p =>
        rw [hs] at h
        dsimp only [Option.map] at h
        injection h with h2
        have hk := congrArg Prod.fst h2
        have hv := congrArg Prod.snd h2
        dsimp only at hk hv
        subst hk
        subst hv
        obtain ⟨he, hn⟩ := ih p.1 p.2 hs
        constructor
        · rw [List.cons_append, ← he]
        · intro hm
          rcases List.mem_cons.mp hm with h3 | h3
          · exact hc h3.symm
          · exact hn h3

theorem updAssoc_mem {κ ν : Type} [DecidableEq κ] :
    ∀ (m : List (κ × ν)) (k : κ) (v : ν) (x : κ × ν),
      x ∈ updAssoc m k v → x ∈ m ∨ x = (k, v) := by
  intro m k v
  induction m with
  | nil =>
    intro x hx
    simp [updAssoc] at hx
    exact Or.inr hx
  | cons p t ih =>
    intro x hx
    unfold updAssoc at hx
    by_cases hp : p.1 = k
    · rw [if_pos hp] at hx
      rcases List.mem_cons.mp hx with h | h
      · exact Or.inr h
      · exact Or.inl (List.mem_cons_of_mem p h)
    · rw [if_neg hp] at hx
      rcases List.mem_cons.mp hx with h | h
      · exact Or.inl (h ▸ List.mem_cons_self p t)
      · rcases ih x h with h2 | h2
        · exact Or.inl (List.mem_cons_of_mem p h2)
        · exact Or.inr h2

theorem lookupA_mem {κ ν : Type} [DecidableEq κ] :
    ∀ (m : List (κ × ν)) (k : κ) (v : ν),
      lookupA m k = some v → (k, v) ∈ m := by
  intro m k v
  induction m with
  | nil => intro h; exact absurd h (by simp [lookupA])
  | cons p t ih =>
    intro h
    unfold lookupA at h
    by_cases hp : p.1 = k
    · rw [if_pos hp] at h
      injection h with h2
      have h3 : (k, v) = p := by rw [← hp, ← h2]
      exact h3 ▸ List.mem_cons_self p t
    · rw [if_neg hp] at h
      exact List.mem_cons_of_mem p (ih h)

theorem dropEndIf_sublist (p : Char → Bool) :
    ∀ l : Str, (dropEndIf p l).Sublist l := by
  intro l
  induction l with
  | nil => simp [dropEndIf]
  | cons c t ih =>
    unfold dropEndIf
    cases hs : dropEndIf p t with
    | nil =>
      by_cases hc : p c
      · simp [hc]
      · simp only [if_neg hc]
        exact List.cons_sublist_cons.mpr (List.nil_sublist t)
    | cons x xs =>
      exact List.cons_sublist_cons.mpr (hs ▸ ih)

theorem trim_sublist : ∀ l : Str, (trim l).Sublist l := by
  intro l
  unfold trim trimR trimL
  exact (dropEndIf_sublist isWs _).trans
    (List.dropWhile_sublist isWs : (List.dropWhile isWs l).Sublist l)

theorem stripQuotesOnce_sublist : ∀ v : Str, (stripQuotesOnce v).Sublist v := by
  intro v
  unfold stripQuotesOnce
  split_ifs with h1 h2
  · exact (List.dropLast_sublist _).trans (List.drop_sublist 1 v)
  · exact (List.dropLast_sublist _).trans (List.drop_sublist 1 v)
  · exact List.Sublist.refl v

theorem coerceNull_eq {v u : Str} (h : coerceNull v = some u) : u = v := by
  unfold coerceNull at h
  split_ifs at h
  injection h with h2
  exact h2.symm

/-! ### The semver matcher accepts exactly the three-component shape -/

theorem all_takeWhile_self (p : Char → Bool) (l : Str) :
    (l.takeWhile p).all p = true :=
  List.all_eq_true.mpr fun _ hx => List.mem_takeWhile_imp hx

theorem takeDigits_append (x : Str) (c : Char) (r : Str)
    (hx : x.all Char.isDigit = true) (hc : ¬ Char.isDigit c = true) :
    DocRegistryBuilder.takeDigits (x ++ c :: r) = (x, c :: r) := by
  induction x with
  | nil =>
    simp only [List.nil_append]
    unfold DocRegistryBuilder.takeDigits
    rw [List.takeWhile_cons, List.dropWhile_cons]
    simp [hc]
  | cons d t ih =>
    have hd : Char.isDigit d = true := by
      have := List.all_eq_true.mp hx d (List.mem_cons_self d t)
      simpa using this
    have ht : t.all Char.isDigit = true :=
      List.all_eq_true.mpr fun y hy =>
        List.all_eq_true.mp hx y (List.mem_cons_of_mem d hy)
    have ih2 := ih ht
    unfold DocRegistryBuilder.takeDigits at ih2 ⊢
    rw [List.cons_append, List.takeWhile_cons, List.dropWhile_cons]
    simp only [hd, if_true]
    have hk1 := congrArg Prod.fst ih2
    have hk2 := congrArg Prod.snd ih2
    dsimp only at hk1 hk2
    rw [hk1, hk2]

theorem takeDigits_all (x : Str) (hx : x.all Char.isDigit = true) :
    DocRegistryBuilder.takeDigits x = (x, []) := by
  induction x with
  | nil => rfl
  | cons d t ih =>
    have hd : Char.isDigit d = true := by
      have := List.all_eq_true.mp hx d (List.mem_cons_self d t)
      simpa using this
    have ht : t.all Char.isDigit = true :=
      List.all_eq_true.mpr fun y hy =>
        List.all_eq_true.mp hx y (List.mem_cons_of_mem d hy)
    have ih2 := ih ht
    unfold DocRegistryBuilder.takeDigits at ih2 ⊢
    rw [List.takeWhile_cons, List.dropWhile_cons]
    simp only [hd, if_true]
    have hk1 := congrArg Prod.fst ih2
    have hk2 := congrArg Prod.snd ih2
    dsimp only at hk1 hk2
    rw [hk1, hk2]

theorem digit_not_dot {x : Str} (hx : x.all Char.isDigit = true) :
    ('.' : Char) ∉ x := by
  intro hm
  have := List.all_eq_true.mp hx _ hm
  exact absurd this (by decide)

theorem semverMatch_decomp (s : Str)
    (h : DocRegistryBuilder.semverMatch s = true) :
    ∃ a b c r : Str, s = a ++ '.' :: (b ++ '.' :: (c ++ r)) ∧
      a ≠ [] ∧ b ≠ [] ∧ c ≠ [] ∧
      a.all Char.isDigit = true ∧ b.all Char.isDigit = true ∧
      c.all Char.isDigit = true ∧ (r = [] ∨ r = ['\n']) := by
  unfold DocRegistryBuilder.semverMatch at h
  split at h
  rename_i a r1 heq1
  by_cases ha : a.isEmpty = true
  · rw [if_pos ha] at h; exact absurd h (by simp)
  rw [if_neg ha] at h
  split at h
  all_goals try exact Bool.noConfusion h
  rename_i r2
  split at h
  rename_i b r3 heq3
  by_cases hb : b.isEmpty = true
  · rw [if_pos hb] at h; exact absurd h (by simp)
  rw [if_neg hb] at h
  split at h
  all_goals try exact Bool.noConfusion h
  rename_i r4
  split at h
  rename_i c r5 heq5
  by_cases hc : c.isEmpty = true
  · rw [if_pos hc] at h; exact absurd h (by simp)
  rw [if_neg hc] at h
  have hs1 : s = a ++ '.' :: r2 := by
    have h1 := congrArg Prod.fst heq1
    have h2 := congrArg Prod.snd heq1
    dsimp only [DocRegistryBuilder.takeDigits] at h1 h2
    rw [← h1, ← h2, List.takeWhile_append_dropWhile]
  have hs2 : r2 = b ++ '.' :: r4 := by
    have h1 := congrArg Prod.fst heq3
    have h2 := congrArg Prod.snd heq3
    dsimp only [DocRegistryBuilder.takeDigits] at h1 h2
    rw [← h1, ← h2, List.takeWhile_append_dropWhile]
  have hs3 : r4 = c ++ r5 := by
    have h1 := congrArg Prod.fst heq5
    have h2 := congrArg Prod.snd heq5
    dsimp only [DocRegistryBuilder.takeDigits] at h1 h2
    rw [← h1, ← h2, List.takeWhile_append_dropWhile]
  have hda : a.all Char.isDigit = true := by
    have h1 := congrArg Prod.fst heq1
    dsimp only [DocRegistryBuilder.takeDigits] at h1
    rw [← h1]
    exact all_takeWhile_self _ _
  have hdb : b.all Char.isDigit = true := by
    have h1 := congrArg Prod.fst heq3
    dsimp only [DocRegistryBuilder.takeDigits] at h1
    rw [← h1]
    exact all_takeWhile_self _ _
  have hdc : c.all Char.isDigit = true := by
    have h1 := congrArg Prod.fst heq5
    dsimp only [DocRegistryBuilder.takeDigits] at h1
    rw [← h1]
    exact all_takeWhile_self _ _
  refine ⟨a, b, c, r5, ?_, ?_, ?_, ?_, hda, hdb, hdc, ?_⟩
  · rw [hs1, hs2, hs3]
  · intro he; rw [he] at ha; exact ha rfl
  · intro he; rw [he] at hb; exact hb rfl
  · intro he; rw [he] at hc; exact hc rfl
  · have h6 : r5.isEmpty = true ∨ r5 = ['\n'] := by simpa using h
    rcases h6 with h5 | h5
    · left
      exact List.isEmpty_iff.mp h5
    · right
      exact h5

theorem semverMatch_of_parts (a b c : Str)
    (ha : a ≠ []) (hb : b ≠ []) (hc : c ≠ [])
    (hda : a.all Char.isDigit = true) (hdb : b.all Char.isDigit = true)
    (hdc : c.all Char.isDigit = true) :
    DocRegistryBuilder.semverMatch (a ++ '.' :: (b ++ '.' :: c)) = true := by
  unfold DocRegistryBuilder.semverMatch
  rw [takeDigits_append a '.' _ hda (by decide)]
  dsimp only
  rw [if_neg (by simpa [List.isEmpty_iff] using ha)]
  split
  case h_2 =>
    rename_i hno
    exact (hno _ rfl).elim
  rename_i r2 heq
  injection heq with h2 h3
  subst h3
  rw [takeDigits_append b '.' c hdb (by decide)]
  dsimp only
  rw [if_neg (by simpa [List.isEmpty_iff] using hb)]
  split
  case h_2 =>
    rename_i hno
    exact (hno _ rfl).elim
  rename_i r4 heq2
  injection heq2 with h4 h5
  subst h5
  rw [takeDigits_all c hdc]
  dsimp only
  rw [if_neg (by simpa [List.isEmpty_iff] using hc)]
  rfl

theorem semverMatch_iff_shape (s : Str) (hnl : ('\n' : Char) ∉ s) :
    DocRegistryBuilder.semverMatch s = true ↔ specSemverShape s = true := by
  constructor
  · intro h
    obtain ⟨a, b, c, r, hs, ha, hb, hc, hda, hdb, hdc, hr⟩ :=
      semverMatch_decomp s h
    have hr0 : r = [] := by
      rcases hr with h0 | h0
      · exact h0
      · exfalso
        apply hnl
        rw [hs, h0]
        simp
    rw [hr0, List.append_nil] at hs
    unfold specSemverShape
    rw [hs, splitChar_append '.' a _ (digit_not_dot hda),
      splitChar_append '.' b _ (digit_not_dot hdb),
      splitChar_no_sep '.' c (digit_not_dot hdc)]
    simp [List.isEmpty_iff, ha, hb, hc, hda, hdb, hdc]
  · intro h
    unfold specSemverShape at h
    split at h
    all_goals try exact Bool.noConfusion h
    rename_i a b c heq
    simp only [Bool.and_eq_true, Bool.not_eq_true, List.isEmpty_eq_false]
      at h
    obtain ⟨⟨⟨⟨⟨ha, hb⟩, hc⟩, hda⟩, hdb⟩, hdc⟩ := h
    have hs : s = a ++ '.' :: (b ++ '.' :: c) := by
      have h2 := splitChar_reconstruct '.' s
      rw [heq] at h2
      simp only [intercalateCh] at h2
      exact h2.symm
    rw [hs]
    exact semverMatch_of_parts a b c (by simpa using ha) (by simpa using hb)
      (by simpa using hc) hda hdb hdc

/-! ### Stripping commutes with splitting at the first colon -/

theorem trimL_cons_ws {c : Char} (cs : Str) (h : isWs c = true) :
    trimL (c :: cs) = trimL cs := by
  unfold trimL
  rw [List.dropWhile_cons, if_pos h]

theorem trimL_cons_not_ws {c : Char} (cs : Str) (h : ¬ isWs c = true) :
    trimL (c :: cs) = c :: cs := by
  unfold trimL
  rw [List.dropWhile_cons, if_neg h]

theorem trimL_idem (l : Str) : trimL (trimL l) = trimL l := by
  induction l with
  | nil => rfl
  | cons c cs ih =>
    by_cases h : isWs c = true
    · rw [trimL_cons_ws cs h, ih]
    · rw [trimL_cons_not_ws cs h, trimL_cons_not_ws cs h]

theorem dropEndIf_cons (p : Char → Bool) (c : Char) (cs : Str) :
    dropEndIf p (c :: cs) =
      match dropEndIf p cs with
      | [] => if p c then [] else [c]
      | r => c :: r := rfl

theorem allWs_of_trimR_eq_nil :
    ∀ l : Str, trimR l = [] → ∀ x ∈ l, isWs x = true := by
  intro l
  induction l with
  | nil => intro _ x hx; simp at hx
  | cons c cs ih =>
    intro h x hx
    rw [show trimR (c :: cs) = dropEndIf isWs (c :: cs) from rfl,
      dropEndIf_cons] at h
    cases hr : dropEndIf isWs cs with
    | nil =>
      rw [hr] at h
      by_cases hc : isWs c = true
      · rcases List.mem_cons.mp hx with h2 | h2
        · rw [h2]; exact hc
        · exact ih hr x h2
      · rw [if_neg hc] at h
        exact absurd h (by simp)
    | cons r0 rs =>
      rw [hr] at h
      exact absurd h (by simp)

theorem trimR_eq_nil_of_allWs :
    ∀ l : Str, (∀ x ∈ l, isWs x = true) → trimR l = [] := by
  intro l
  induction l with
  | nil => intro _; rfl
  | cons c cs ih =>
    intro h
    rw [show trimR (c :: cs) = dropEndIf isWs (c :: cs) from rfl,
      dropEndIf_cons]
    rw [show dropEndIf isWs cs = trimR cs from rfl,
      ih fun x hx => h x (List.mem_cons_of_mem c hx)]
    rw [if_pos (h c (List.mem_cons_self c cs))]

theorem trimR_cons_not_ws {c : Char} (cs : Str) (h : ¬ isWs c = true) :
    trimR (c :: cs) = c :: trimR cs := by
  rw [show trimR (c :: cs) = dropEndIf isWs (c :: cs) from rfl, dropEndIf_cons]
  cases hr : dropEndIf isWs cs with
  | nil =>
    rw [if_neg h]
    rw [show trimR cs = dropEndIf isWs cs from rfl, hr]
  | cons r0 rs =>
    rw [show trimR cs = dropEndIf isWs cs from rfl, hr]

theorem trimR_cons_ws {c : Char} (cs : Str) (h : isWs c = true) :
    trimR (c :: cs) = if trimR cs = [] then [] else c :: trimR cs := by
  rw [show trimR (c :: cs) = dropEndIf isWs (c :: cs) from rfl, dropEndIf_cons]
  cases hr : dropEndIf isWs cs with
  | nil =>
    rw [show trimR cs = dropEndIf isWs cs from rfl, hr]
    simp [h]
  | cons r0 rs =>
    rw [show trimR cs = dropEndIf isWs cs from rfl, hr]
    simp

theorem trimLR_comm : ∀ l : Str, trimL (trimR l) = trimR (trimL l) := by
  intro l
  induction l with
  | nil => rfl
  | cons c cs ih =>
    by_cases h : isWs c = true
    · rw [trimL_cons_ws cs h, trimR_cons_ws cs h]
      by_cases hr : trimR cs = []
      · rw [if_pos hr]
        have hall := allWs_of_trimR_eq_nil cs hr
        have : ∀ x ∈ trimL cs, isWs x = true := fun x hx =>
          hall x ((List.dropWhile_sublist isWs :
            (List.dropWhile isWs cs).Sublist cs).mem hx)
        rw [trimR_eq_nil_of_allWs _ this]
        rfl
      · rw [if_neg hr, trimL_cons_ws _ h, ih]
    · rw [trimL_cons_not_ws cs h, trimR_cons_not_ws cs h,
        trimL_cons_not_ws (trimR cs) h]

theorem trimR_idem : ∀ l : Str, trimR (trimR l) = trimR l := by
  intro l
  induction l with
  | nil => rfl
  | cons c cs ih =>
    by_cases h : isWs c = true
    · rw [trimR_cons_ws cs h]
      by_cases hr : trimR cs = []
      · rw [if_pos hr]; rfl
      · rw [if_neg hr, trimR_cons_ws _ h, ih, if_neg hr]
    · rw [trimR_cons_not_ws cs h, trimR_cons_not_ws _ h, ih]

theorem trim_trimL (l : Str) : trim (trimL l) = trim l := by
  unfold trim
  rw [trimL_idem]

theorem trim_trimR (l : Str) : trim (trimR l) = trim l := by
  unfold trim
  rw [← trimLR_comm, trimR_idem, trimLR_comm]

theorem splitColon_cons (c : Char) (cs : Str) :
    splitColon (c :: cs) =
      if c = ':' then some ([], cs)
      else (splitColon cs).map fun p => (c :: p.1, p.2) := rfl

theorem splitColon_none_of_no_colon :
    ∀ l : Str, (∀ x ∈ l, ¬ x = ':') → splitColon l = none := by
  intro l
  induction l with
  | nil => intro _; rfl
  | cons c cs ih =>
    intro h
    unfold splitColon
    rw [if_neg (h c (List.mem_cons_self c cs)),
      ih fun x hx => h x (List.mem_cons_of_mem c hx)]
    rfl

theorem splitColon_trimL :
    ∀ l : Str, splitColon (trimL l) =
      (splitColon l).map fun p => (trimL p.1, p.2) := by
  intro l
  induction l with
  | nil => rfl
  | cons c cs ih =>
    by_cases hw : isWs c = true
    · have hc : ¬ c = ':' := fun he => by
        rw [he] at hw
        exact absurd hw (by decide)
      rw [trimL_cons_ws cs hw, ih, splitColon_cons, if_neg hc]
      cases hs : splitColon cs with
      | none => rfl
      | some p =>
        dsimp only [Option.map]
        rw [trimL_cons_ws p.1 hw]
    · rw [trimL_cons_not_ws cs hw, splitColon_cons]
      by_cases hc : c = ':'
      · rw [if_pos hc]
        rfl
      · rw [if_neg hc]
        cases hs : splitColon cs with
        | none => rfl
        | some p =>
          dsimp only [Option.map]
          rw [trimL_cons_not_ws p.1 hw]

theorem splitColon_trimR :
    ∀ l : Str, splitColon (trimR l) =
      (splitColon l).map fun p => (p.1, trimR p.2) := by
  intro l
  induction l with
  | nil => rfl
  | cons c cs ih =>
    by_cases hc : c = ':'
    · subst hc
      have hw : ¬ isWs ':' = true := by decide
      rw [trimR_cons_not_ws cs hw, splitColon_cons, splitColon_cons,
        if_pos rfl, if_pos rfl]
      rfl
    · cases hr : trimR cs with
      | nil =>
        have hall := allWs_of_trimR_eq_nil cs hr
        have hnone : splitColon cs = none := splitColon_none_of_no_colon cs
          fun x hx he => by
            have := hall x hx
            rw [he] at this
            exact absurd this (by decide)
        have hleft : splitColon (trimR (c :: cs)) = none := by
          by_cases hw : isWs c = true
          · rw [trimR_cons_ws cs hw, hr, if_pos rfl]
            rfl
          · rw [trimR_cons_not_ws cs hw, hr, splitColon_cons, if_neg hc]
            rfl
        rw [hleft, splitColon_cons, if_neg hc, hnone]
        rfl
      | cons r0 rs =>
        have hwsplit : trimR (c :: cs) = c :: trimR cs := by
          by_cases hw : isWs c = true
          · rw [trimR_cons_ws cs hw, if_neg (by rw [hr]; simp)]
          · exact trimR_cons_not_ws cs hw
        rw [hwsplit, splitColon_cons, if_neg hc, ih, splitColon_cons,
          if_neg hc]
        cases hs : splitColon cs with
        | none => rfl
        | some p => rfl

theorem splitColon_trim (l : Str) :
    splitColon (trim l) =
      (splitColon l).map fun p => (trimL p.1, trimR p.2) := by
  unfold trim
  rw [splitColon_trimR, splitColon_trimL]
  cases hs : splitColon l with
  | none => rfl
  | some p => rfl

/-! ### One-layer quote stripping matches the spec wording -/

theorem singleton_isPrefixOf_iff (q : Char) (t : Str) :
    ([q].isPrefixOf t = true) ↔ t.head? = some q := by
  cases t with
  | nil => simp [List.isPrefixOf]
  | cons c cs =>
    simp [List.isPrefixOf]
    exact eq_comm

theorem singleton_isSuffixOf_iff (q : Char) (t : Str) :
    ([q].isSuffixOf t = true) ↔ t.getLast? = some q := by
  show ([q].reverse.isPrefixOf t.reverse = true) ↔ _
  rw [show ([q] : Str).reverse = [q] from rfl, singleton_isPrefixOf_iff,
    List.head?_reverse]

theorem stripQuotesOnce_spec (t : Str) :
    stripQuotesOnce t =
      if specWrapped t then (t.drop 1).dropLast else t := by
  cases hh : t.head? with
  | none =>
    have ht : t = [] := by
      cases t with
      | nil => rfl
      | cons c cs => simp at hh
    subst ht
    decide
  | some a =>
    cases hl : t.getLast? with
    | none =>
      have ht : t = [] := by
        cases t with
        | nil => rfl
        | cons c cs => exact absurd hl (by simp)
      rw [ht] at hh
      exact absurd hh (by simp)
    | some b =>
      have e1 : (['"'].isPrefixOf t = true ∧ ['"'].isSuffixOf t = true) ↔
          (a = '"' ∧ b = '"') := by
        rw [singleton_isPrefixOf_iff, singleton_isSuffixOf_iff, hh, hl]
        simp
      have e2 : ([squote].isPrefixOf t = true ∧ [squote].isSuffixOf t = true) ↔
          (a = squote ∧ b = squote) := by
        rw [singleton_isPrefixOf_iff, singleton_isSuffixOf_iff, hh, hl]
        simp
      have e3 : (specWrapped t = true) ↔ (isQuote a = true ∧ a = b) := by
        unfold specWrapped
        rw [hh, hl]
        simp
      unfold stripQuotesOnce
      by_cases hq1 : a = '"' ∧ b = '"'
      · rw [if_pos (e1.mpr hq1), if_pos (e3.mpr ⟨by simp [isQuote, hq1.1],
          by rw [hq1.1, hq1.2]⟩)]
      · rw [if_neg fun hx => hq1 (e1.mp hx)]
        by_cases hq2 : a = squote ∧ b = squote
        · rw [if_pos (e2.mpr hq2), if_pos (e3.mpr ⟨by simp [isQuote, hq2.1],
            by rw [hq2.1, hq2.2]⟩)]
        · rw [if_neg fun hx => hq2 (e2.mp hx)]
          rw [if_neg fun hx => ?_]
          rcases e3.mp hx with ⟨hqa, hab⟩
          rcases (by simpa [isQuote] using hqa : a = '"' ∨ a = squote)
            with h4 | h4
          · exact hq1 ⟨h4, by rw [← hab, h4]⟩
          · exact hq2 ⟨h4, by rw [← hab, h4]⟩

theorem coerceNull_spec (u : Str) :
    coerceNull u = if specNull u then none else some u := by
  unfold coerceNull specNull
  by_cases h : lowerS u = "null".data ∨ lowerS u = "~".data ∨
      lowerS u = "".data
  · have hm : lowerS u ∈ ["null".data, ['~'], ([] : Str)] := by
      rcases h with h | h | h <;> rw [h]
      · exact List.mem_cons_self _ _
      · exact List.mem_cons_of_mem _ (List.mem_cons_self _ _)
      · exact List.mem_cons_of_mem _
          (List.mem_cons_of_mem _ (List.mem_cons_self _ _))
    rw [if_pos h, if_pos (decide_eq_true hm)]
  · have hm : ¬ lowerS u ∈ ["null".data, ['~'], ([] : Str)] := by
      intro hmem
      apply h
      rcases List.mem_cons.mp hmem with h2 | h2
      · exact Or.inl h2
      rcases List.mem_cons.mp h2 with h3 | h3
      · exact Or.inr (Or.inl h3)
      rcases List.mem_cons.mp h3 with h4 | h4
      · exact Or.inr (Or.inr h4)
      · simp at h4
    rw [if_neg h, if_neg (by simpa using hm)]

/-- The strict builder's per-line parse coincides with the spec-worded
line rule. -/
theorem lineParse_strict_spec (line : Str) :
    DocRegistryBuilder.lineParse line = specLineParse line := by
  unfold DocRegistryBuilder.lineParse specLineParse
  rw [splitColon_trim]
  cases hs : splitColon line with
  | none => rfl
  | some p =>
    dsimp only [Option.map]
    rw [trim_trimL p.1, trim_trimR p.2, stripQuotesOnce_spec, coerceNull_spec]

/-! ### Claim C4 -/

/-- Claim C4 (amended): the strict Registry Builder's per-line parse follows
the stated rule exactly — split at the first colon, trim key and value,
strip exactly one layer of quotes only when the value is wrapped in a single
matching layer, and store an explicit null for `null`, `~` or the empty
string. (The lenient Version Extractor deviates: it strips all leading and
trailing double-quote characters and then all single-quote characters; see
the counterexample.) -/
theorem C4_header_line_rule (line : Str) :
    DocRegistryBuilder.lineParse line = specLineParse line :=
  lineParse_strict_spec line

/-! ### On benign values both quote-stripping disciplines agree -/

theorem dropEndIf_eq_self_of_last (p : Char → Bool) :
    ∀ l : Str, (∀ c, l.getLast? = some c → ¬ p c = true) →
      dropEndIf p l = l := by
  intro l
  induction l with
  | nil => intro _; rfl
  | cons c cs ih =>
    intro h
    rw [dropEndIf_cons]
    cases hcs : cs with
    | nil =>
      subst hcs
      rw [show dropEndIf p [] = [] from rfl]
      rw [if_neg (h c (by simp))]
    | cons d ds =>
      have h2 : dropEndIf p cs = cs := by
        apply ih
        intro e he
        apply h
        rw [hcs, List.getLast?_cons_cons, ← hcs, he]
      rw [hcs] at h2
      rw [h2]

theorem stripCh_eq_self (q : Char) (t : Str)
    (hh : ∀ c, t.head? = some c → ¬ c = q)
    (hl : ∀ c, t.getLast? = some c → ¬ c = q) :
    stripCh q t = t := by
  unfold stripCh
  have h1 : t.dropWhile (fun c => c = q) = t := by
    cases t with
    | nil => rfl
    | cons c cs =>
      rw [List.dropWhile_cons, if_neg (by simpa using hh c (by simp))]
  rw [h1]
  exact dropEndIf_eq_self_of_last _ t fun c hc => by simpa using hl c hc

theorem dropEndIf_concat (p : Char → Bool) :
    ∀ (xs : Str) (c : Char),
      dropEndIf p (xs ++ [c]) =
        if p c then dropEndIf p xs else xs ++ [c] := by
  intro xs
  induction xs with
  | nil =>
    intro c
    rw [List.nil_append, dropEndIf_cons]
    rw [show dropEndIf p [] = [] from rfl]
  | cons x t ih =>
    intro c
    rw [List.cons_append, dropEndIf_cons, ih c]
    by_cases hpc : p c = true
    · rw [if_pos hpc, if_pos hpc, dropEndIf_cons]
    · rw [if_neg hpc, if_neg hpc]
      cases ht : t ++ [c] with
      | nil => exact absurd ht (by simp)
      | cons y ys => rfl

theorem stripCh_wrapped (q : Char) (mid : Str)
    (hh : ∀ c, mid.head? = some c → ¬ c = q)
    (hl : ∀ c, mid.getLast? = some c → ¬ c = q) :
    stripCh q (q :: (mid ++ [q])) = mid := by
  unfold stripCh
  rw [List.dropWhile_cons, if_pos (by simp)]
  cases mid with
  | nil =>
    rw [List.nil_append, List.dropWhile_cons, if_pos (by simp)]
    rfl
  | cons m0 ms =>
    rw [List.cons_append, List.dropWhile_cons,
      if_neg (by simpa using hh m0 (by simp))]
    rw [show m0 :: (ms ++ [q]) = (m0 :: ms) ++ [q] from rfl,
      dropEndIf_concat, if_pos (by simp)]
    exact dropEndIf_eq_self_of_last _ _ fun c hc => by simpa using hl c hc

theorem noQuoteEnds_head {u : Str} {c : Char} (h : noQuoteEnds u = true)
    (hc : u.head? = some c) : ¬ isQuote c = true := by
  unfold noQuoteEnds at h
  rw [hc, Bool.and_eq_true] at h
  simpa using h.1

theorem noQuoteEnds_last {u : Str} {c : Char} (h : noQuoteEnds u = true)
    (hc : u.getLast? = some c) : ¬ isQuote c = true := by
  unfold noQuoteEnds at h
  rw [hc, Bool.and_eq_true] at h
  simpa using h.2

theorem benign_strip_eq (t : Str) (hb : benignVal t = true) :
    stripQuotesOnce t = stripCh squote (stripCh '"' t) := by
  unfold benignVal at hb
  rw [Bool.or_eq_true] at hb
  rcases hb with hbare | hwrap
  · -- no quote character at either end: everything is the identity
    have hsw : ¬ specWrapped t = true := by
      intro hw
      unfold specWrapped at hw
      cases hh : t.head? with
      | none => rw [hh] at hw; cases hl : t.getLast? <;> rw [hl] at hw <;>
          exact Bool.noConfusion hw
      | some a =>
        cases hl : t.getLast? with
        | none => rw [hh, hl] at hw; exact Bool.noConfusion hw
        | some b =>
          rw [hh, hl, Bool.and_eq_true] at hw
          exact noQuoteEnds_head hbare hh hw.1
    rw [stripQuotesOnce_spec, if_neg hsw]
    have hdq : stripCh '"' t = t := by
      apply stripCh_eq_self
      · intro c hc he
        exact noQuoteEnds_head hbare hc (by simp [isQuote, he])
      · intro c hc he
        exact noQuoteEnds_last hbare hc (by simp [isQuote, he])
    rw [hdq]
    symm
    apply stripCh_eq_self
    · intro c hc he
      exact noQuoteEnds_head hbare hc (by simp [isQuote, he])
    · intro c hc he
      exact noQuoteEnds_last hbare hc (by simp [isQuote, he])
  · rw [Bool.and_eq_true] at hwrap
    rcases hwrap with ⟨h1, hmid⟩
    rw [Bool.and_eq_true] at h1
    rcases h1 with ⟨hlen, hw⟩
    -- decompose t = a :: (mid ++ [b]) with a = b a quote character
    cases t with
    | nil => exact absurd hlen (by decide)
    | cons a rest =>
      rcases List.eq_nil_or_concat rest with hre | ⟨mid, b, hre⟩
      · rw [hre] at hlen
        simp at hlen
      · subst hre
        rw [List.concat_eq_append] at hmid hlen hw ⊢
        have hh : (a :: (mid ++ [b])).head? = some a := rfl
        have hl : (a :: (mid ++ [b])).getLast? = some b := by
          rw [show a :: (mid ++ [b]) = (a :: mid) ++ [b] from rfl]
          exact List.getLast?_concat _
        unfold specWrapped at hw
        rw [hh, hl, Bool.and_eq_true] at hw
        rcases hw with ⟨hqa, hab⟩
        have hab2 : a = b := by simpa using hab
        subst hab2
        have hmid2 : noQuoteEnds mid = true := by
          have h7 : ((a :: (mid ++ [a])).drop 1).dropLast = mid := by
            rw [List.drop_one, show (a :: (mid ++ [a])).tail = mid ++ [a]
              from rfl, List.dropLast_concat]
          rw [h7] at hmid
          exact hmid
        rw [stripQuotesOnce_spec]
        rw [if_pos ?hwrapped]
        case hwrapped =>
          unfold specWrapped
          rw [hh, hl]
          simp [hqa]
        have hdrop : ((a :: (mid ++ [a])).drop 1).dropLast = mid := by
          rw [List.drop_one, show (a :: (mid ++ [a])).tail = mid ++ [a]
            from rfl, List.dropLast_concat]
        rw [hdrop]
        rcases (by simpa [isQuote] using hqa : a = '"' ∨ a = squote) with
          h4 | h4
        · subst h4
          have hstep1 : stripCh '"' ('"' :: (mid ++ ['"'])) = mid := by
            apply stripCh_wrapped
            · intro c hc he
              exact noQuoteEnds_head hmid2 hc (by simp [isQuote, he])
            · intro c hc he
              exact noQuoteEnds_last hmid2 hc (by simp [isQuote, he])
          rw [hstep1]
          symm
          apply stripCh_eq_self
          · intro c hc he
            exact noQuoteEnds_head hmid2 hc (by simp [isQuote, he])
          · intro c hc he
            exact noQuoteEnds_last hmid2 hc (by simp [isQuote, he])
        · subst h4
          have hstep1 : stripCh '"' (squote :: (mid ++ [squote])) =
              squote :: (mid ++ [squote]) := by
            apply stripCh_eq_self
            · intro c hc he
              rw [hh] at hc
              injection hc with hc2
              rw [← hc2] at he
              exact absurd he (by decide)
            · intro c hc he
              rw [hl] at hc
              injection hc with hc2
              rw [← hc2] at he
              exact absurd he (by decide)
          rw [hstep1]
          symm
          apply stripCh_wrapped
          · intro c hc he
            exact noQuoteEnds_head hmid2 hc (by simp [isQuote, he])
          · intro c hc he
            exact noQuoteEnds_last hmid2 hc (by simp [isQuote, he])

theorem lineParse_benign_eq (line : Str) (hb : benignLine line = true) :
    DocRegistryBuilder.lineParse line =
      DocumentVersionExtractor.lineParse line := by
  rw [lineParse_strict_spec]
  unfold specLineParse DocumentVersionExtractor.lineParse
  cases hs : splitColon line with
  | none => rfl
  | some p =>
    unfold benignLine at hb
    rw [hs] at hb
    dsimp only at hb
    dsimp only [Option.map]
    rw [← stripQuotesOnce_spec, ← coerceNull_spec, benign_strip_eq _ hb]

theorem updLine_benign_eq (m : Meta) (line : Str)
    (hb : benignLine line = true) :
    DocRegistryBuilder.updLine m line =
      DocumentVersionExtractor.updLine m line := by
  unfold DocRegistryBuilder.updLine DocumentVersionExtractor.updLine
  rw [lineParse_benign_eq line hb]

theorem foldl_updLine_benign_eq :
    ∀ (lines : List Str) (m0 : Meta),
      (∀ l ∈ lines, benignLine l = true) →
      lines.foldl DocRegistryBuilder.updLine m0 =
        lines.foldl DocumentVersionExtractor.updLine m0 := by
  intro lines
  induction lines with
  | nil => intro m0 _; rfl
  | cons line t ih =>
    intro m0 h
    rw [List.foldl_cons, List.foldl_cons,
      updLine_benign_eq m0 line (h line (List.mem_cons_self line t))]
    exact ih _ fun x hx => h x (List.mem_cons_of_mem line hx)

theorem extractMeta_benign_eq (c : Str) (hb : benignContent c = true) :
    DocRegistryBuilder.extractMeta c =
      DocumentVersionExtractor.extractMeta c := by
  unfold DocRegistryBuilder.extractMeta DocumentVersionExtractor.extractMeta
  cases hh : headerLines c with
  | none => rfl
  | some lines =>
    unfold benignContent at hb
    rw [hh] at hb
    dsimp only at hb ⊢
    rw [foldl_updLine_benign_eq lines []
      fun l hl => by simpa using List.all_eq_true.mp hb l hl]

/-! ### Parsed header values contain no newline -/

theorem updLine_no_newline (m : Meta) (line : Str)
    (hline : ('\n' : Char) ∉ line)
    (hm : ∀ k u, (k, some u) ∈ m → ('\n' : Char) ∉ u) :
    ∀ k u, (k, some u) ∈ DocRegistryBuilder.updLine m line →
      ('\n' : Char) ∉ u := by
  intro k u hmem
  unfold DocRegistryBuilder.updLine at hmem
  cases hlp : DocRegistryBuilder.lineParse line with
  | none =>
    rw [hlp] at hmem
    exact hm k u hmem
  | some p =>
    rw [hlp] at hmem
    dsimp only at hmem
    rcases updAssoc_mem m p.1 p.2 _ hmem with h | h
    · exact hm k u h
    · have hv := congrArg Prod.snd h
      dsimp only at hv
      unfold DocRegistryBuilder.lineParse at hlp
      cases hsc : splitColon (trim line) with
      | none => rw [hsc] at hlp; exact absurd hlp (by simp)
      | some q =>
        rw [hsc] at hlp
        dsimp only at hlp
        injection hlp with h2
        have h3 := congrArg Prod.snd h2
        dsimp only at h3
        rw [← h3] at hv
        have hu : u = stripQuotesOnce (trim q.2) := coerceNull_eq hv.symm
        have hsub : (stripQuotesOnce (trim q.2)).Sublist line := by
          have s1 := stripQuotesOnce_sublist (trim q.2)
          have s2 := trim_sublist q.2
          have s3 : q.2.Sublist (trim line) := by
            obtain ⟨he, _⟩ := splitColon_structure _ q.1 q.2 hsc
            rw [he]
            exact ((List.sublist_cons_self ':' q.2).trans
              (List.sublist_append_right q.1 (':' :: q.2)))
          exact ((s1.trans s2).trans s3).trans (trim_sublist line)
        intro hmem2
        rw [hu] at hmem2
        exact hline (hsub.mem hmem2)

theorem foldl_updLine_no_newline :
    ∀ (lines : List Str) (m0 : Meta),
      (∀ line ∈ lines, ('\n' : Char) ∉ line) →
      (∀ k u, (k, some u) ∈ m0 → ('\n' : Char) ∉ u) →
      ∀ k u, (k, some u) ∈ lines.foldl DocRegistryBuilder.updLine m0 →
        ('\n' : Char) ∉ u := by
  intro lines
  induction lines with
  | nil => intro m0 _ hm0; exact hm0
  | cons line t ih =>
    intro m0 hl hm0
    rw [List.foldl_cons]
    exact ih (DocRegistryBuilder.updLine m0 line)
      (fun x hx => hl x (List.mem_cons_of_mem line hx))
      (updLine_no_newline m0 line (hl line (List.mem_cons_self line t)) hm0)

theorem headerLines_no_newline (c : Str) (lines : List Str)
    (h : headerLines c = some lines) : ∀ x ∈ lines, ('\n' : Char) ∉ x := by
  unfold headerLines at h
  split_ifs at h
  split at h
  · injection h with h2
    intro x hx
    rw [← h2] at hx
    exact splitChar_not_mem '\n' _ x hx
  · exact absurd h (by simp)

theorem extractMeta_no_newline (c : Str) (m : Meta)
    (hm : DocRegistryBuilder.extractMeta c = some m) :
    ∀ k u, (k, some u) ∈ m → ('\n' : Char) ∉ u := by
  unfold DocRegistryBuilder.extractMeta at hm
  cases hh : headerLines c with
  | none => rw [hh] at hm; exact absurd hm (by simp)
  | some lines =>
    rw [hh] at hm
    dsimp only at hm
    by_cases hE : (lines.foldl DocRegistryBuilder.updLine []).isEmpty = true
    · rw [if_pos hE] at hm
      exact absurd hm (by simp)
    · rw [if_neg hE] at hm
      injection hm with h2
      intro k u hmem
      rw [← h2] at hmem
      exact foldl_updLine_no_newline lines []
        (headerLines_no_newline c lines hh) (by simp) k u hmem

/-! ### The key order is total, transitive and antisymmetric -/

theorem char_eq_of_toNat_eq {a b : Char} (h : a.toNat = b.toNat) : a = b :=
  Char.ext (UInt32.ext h)

theorem strLE_total : ∀ a b : Str, strLE a b = true ∨ strLE b a = true := by
  intro a
  induction a with
  | nil => intro b; left; rfl
  | cons c t ih =>
    intro b
    cases b with
    | nil => right; rfl
    | cons c2 t2 =>
      unfold strLE
      rcases Nat.lt_trichotomy c.toNat c2.toNat with h | h | h
      · left; simp [h]
      · have hne : ¬ c.toNat < c2.toNat := by omega
        have hne2 : ¬ c2.toNat < c.toNat := by omega
        rcases ih t2 with h2 | h2
        · left; simp [hne, hne2, h2]
        · right; simp [hne, hne2, h2]
      · right; simp [h]

theorem strLE_antisymm : ∀ a b : Str,
    strLE a b = true → strLE b a = true → a = b := by
  intro a
  induction a with
  | nil =>
    intro b _ h2
    cases b with
    | nil => rfl
    | cons c2 t2 => exact absurd h2 (by simp [strLE])
  | cons c t ih =>
    intro b h1 h2
    cases b with
    | nil => exact absurd h1 (by simp [strLE])
    | cons c2 t2 =>
      unfold strLE at h1 h2
      rcases Nat.lt_trichotomy c.toNat c2.toNat with h | h | h
      · rw [if_neg (by omega), if_pos h] at h2
        exact absurd h2 (by simp)
      · have he := char_eq_of_toNat_eq h
        subst he
        rw [if_neg (by omega), if_neg (by omega)] at h1 h2
        rw [ih t2 h1 h2]
      · rw [if_neg (by omega), if_pos h] at h1
        exact absurd h1 (by simp)

theorem strLE_trans : ∀ a b c : Str,
    strLE a b = true → strLE b c = true → strLE a c = true := by
  intro a
  induction a with
  | nil => intro b c _ _; rfl
  | cons x t ih =>
    intro b c h1 h2
    cases b with
    | nil => exact absurd h1 (by simp [strLE])
    | cons y t2 =>
      cases c with
      | nil => exact absurd h2 (by simp [strLE])
      | cons z t3 =>
        unfold strLE at h1 h2 ⊢
        rcases Nat.lt_trichotomy x.toNat y.toNat with hxy | hxy | hxy <;>
          rcases Nat.lt_trichotomy y.toNat z.toNat with hyz | hyz | hyz
        · simp [show x.toNat < z.toNat by omega]
        · simp [show x.toNat < z.toNat by omega]
        · rw [if_neg (by omega), if_pos hyz] at h2
          exact absurd h2 (by simp)
        · simp [show x.toNat < z.toNat by omega]
        · rw [if_neg (by omega), if_neg (by omega)] at h1
          rw [if_neg (by omega), if_neg (by omega)] at h2
          rw [if_neg (by omega), if_neg (by omega)]
          exact ih t2 t3 h1 h2
        · rw [if_neg (by omega), if_pos hyz] at h2
          exact absurd h2 (by simp)
        · rw [if_neg (by omega), if_pos hxy] at h1
          exact absurd h1 (by simp)
        · rw [if_neg (by omega), if_pos hxy] at h1
          exact absurd h1 (by simp)
        · rw [if_neg (by omega), if_pos hxy] at h1
          exact absurd h1 (by simp)

theorem keyLE_total : ∀ a b : RKey, keyLE a b = true ∨ keyLE b a = true := by
  intro a b
  cases a with
  | none => left; rfl
  | some sa =>
    cases b with
    | none => right; rfl
    | some sb => exact strLE_total sa sb

theorem keyLE_antisymm : ∀ a b : RKey,
    keyLE a b = true → keyLE b a = true → a = b := by
  intro a b h1 h2
  cases a with
  | none =>
    cases b with
    | none => rfl
    | some sb => exact absurd h2 (by simp [keyLE])
  | some sa =>
    cases b with
    | none => exact absurd h1 (by simp [keyLE])
    | some sb => rw [strLE_antisymm sa sb h1 h2]

theorem keyLE_trans : ∀ a b c : RKey,
    keyLE a b = true → keyLE b c = true → keyLE a c = true := by
  intro a b c h1 h2
  cases a with
  | none => rfl
  | some sa =>
    cases b with
    | none => exact absurd h1 (by simp [keyLE])
    | some sb =>
      cases c with
      | none => exact absurd h2 (by simp [keyLE])
      | some sc => exact strLE_trans sa sb sc h1 h2

/-- Two sorted registry serializations that are permutations of each other
and have duplicate-free keys are equal. -/
instance : IsTotal (RKey × DocRegistryBuilder.DocumentRecord)
    DocRegistryBuilder.recLE :=
  ⟨fun p q => keyLE_total p.1 q.1⟩

instance : IsTrans (RKey × DocRegistryBuilder.DocumentRecord)
    DocRegistryBuilder.recLE :=
  ⟨fun p q r => keyLE_trans p.1 q.1 r.1⟩

theorem eq_of_perm_sorted_nodup_keys :
    ∀ (l1 l2 : List (RKey × DocRegistryBuilder.DocumentRecord)),
      l1.Perm l2 → l1.Sorted DocRegistryBuilder.recLE →
      l2.Sorted DocRegistryBuilder.recLE → (l1.map Prod.fst).Nodup →
      l1 = l2 := by
  intro l1
  induction l1 with
  | nil =>
    intro l2 hp _ _ _
    exact (hp.symm.eq_nil).symm
  | cons a t1 ih =>
    intro l2 hp hs1 hs2 hnd
    cases l2 with
    | nil => exact hp.eq_nil
    | cons b t2 =>
      by_cases hab : a = b
      · subst hab
        have hp2 := hp.cons_inv
        rw [ih t2 hp2 (List.sorted_cons.mp hs1).2 (List.sorted_cons.mp hs2).2
          ((List.nodup_cons.mp hnd).2)]
      · exfalso
        have ha2 : a ∈ t2 := by
          have := hp.subset (List.mem_cons_self a t1)
          rcases List.mem_cons.mp this with h | h
          · exact absurd h hab
          · exact h
        have hb1 : b ∈ t1 := by
          have := hp.symm.subset (List.mem_cons_self b t2)
          rcases List.mem_cons.mp this with h | h
          · exact absurd h.symm hab
          · exact h
        have hr1 : DocRegistryBuilder.recLE a b :=
          (List.sorted_cons.mp hs1).1 b hb1
        have hr2 : DocRegistryBuilder.recLE b a :=
          (List.sorted_cons.mp hs2).1 a ha2
        have hkey : a.1 = b.1 := keyLE_antisymm a.1 b.1 hr1 hr2
        have : a.1 ∈ t1.map Prod.fst := by
          rw [hkey]
          exact List.mem_map_of_mem Prod.fst hb1
        exact (List.nodup_cons.mp hnd).1 this

namespace DocRegistryBuilder

/-- When a scan reports no duplicates, the registry is exactly the list of
valid records in traversal order, and its keys are duplicate-free. -/
theorem scan_registry_no_dups :
    ∀ (docs : List MdFile) (s : BState),
      s.duplicates = [] →
      (docs.foldl stepB s).duplicates = [] →
      (s.registry.map Prod.fst).Nodup →
      (docs.foldl stepB s).registry = s.registry ++ docs.filterMap procDoc ∧
      (((docs.foldl stepB s).registry).map Prod.fst).Nodup := by
  intro docs
  induction docs with
  | nil =>
    intro s _ _ hnd
    exact ⟨by simp, hnd⟩
  | cons d t ih =>
    intro s hs0 hfin hnd
    rw [List.foldl_cons] at hfin ⊢
    cases hq : procDoc d with
    | none =>
      rw [stepB_of_procDoc_none s d hq] at hfin ⊢
      have h2 := ih ⟨s.registry, s.duplicates, s.errors ++ docErrs d, s.count⟩
        hs0 hfin hnd
      refine ⟨?_, h2.2⟩
      rw [h2.1]
      simp [List.filterMap_cons, hq]
    | some p =>
      cases hl : lookupA s.registry p.1 with
      | some ex =>
        exfalso
        rw [stepB_of_procDoc_some_dup s d p.1 p.2 ex (by rw [hq]) hl] at hfin
        obtain ⟨t2, hmono⟩ := scan_dups_mono t
          ⟨s.registry, s.duplicates ++ [(p.1, ex.path, d.path)], s.errors,
            s.count⟩
        rw [hfin] at hmono
        have : s.duplicates ++ [(p.1, ex.path, d.path)] ++ t2 = [] := hmono.symm
        simp at this
      | none =>
        rw [stepB_of_procDoc_some_fresh s d p.1 p.2 (by rw [hq]) hl] at hfin ⊢
        have hnd2 : ((s.registry ++ [(p.1, p.2)]).map Prod.fst).Nodup := by
          rw [List.map_append]
          simp [List.nodup_append, hnd, not_mem_keys_of_lookupA_none hl]
        have h2 := ih
          ⟨s.registry ++ [(p.1, p.2)], s.duplicates, s.errors, s.count + 1⟩
          hs0 hfin hnd2
        refine ⟨?_, h2.2⟩
        rw [h2.1]
        simp [List.filterMap_cons, hq]

end DocRegistryBuilder

/-! ### Claim C7 -/

/-- Claim C7: scanning an unchanged document tree twice — in possibly
different traversal orders — with both scans succeeding produces identical
persisted registry serializations (sorted by key, fixed field order). -/
theorem C7_serialization_deterministic (l1 l2 : List MdFile)
    (hperm : l1.Perm l2)
    (h1 : DocRegistryBuilder.report_status
      (DocRegistryBuilder.scan_documents l1) = true)
    (h2 : DocRegistryBuilder.report_status
      (DocRegistryBuilder.scan_documents l2) = true) :
    DocRegistryBuilder.save_registry (DocRegistryBuilder.scan_documents l1) =
      DocRegistryBuilder.save_registry (DocRegistryBuilder.scan_documents l2) := by
  have hd1 := ((report_status_eq_true _).mp h1).1
  have hd2 := ((report_status_eq_true _).mp h2).1
  have hr1 := DocRegistryBuilder.scan_registry_no_dups l1
    DocRegistryBuilder.initB rfl hd1 (by simp [DocRegistryBuilder.initB])
  have hr2 := DocRegistryBuilder.scan_registry_no_dups l2
    DocRegistryBuilder.initB rfl hd2 (by simp [DocRegistryBuilder.initB])
  have hvperm : (DocRegistryBuilder.scan_documents l1).registry.Perm
      (DocRegistryBuilder.scan_documents l2).registry := by
    have hlr1 : (DocRegistryBuilder.scan_documents l1).registry =
        l1.filterMap DocRegistryBuilder.procDoc := by
      have := hr1.1
      simpa using this
    have hlr2 : (DocRegistryBuilder.scan_documents l2).registry =
        l2.filterMap DocRegistryBuilder.procDoc := by
      have := hr2.1
      simpa using this
    rw [hlr1, hlr2]
    exact hperm.filterMap DocRegistryBuilder.procDoc
  unfold DocRegistryBuilder.save_registry
  apply eq_of_perm_sorted_nodup_keys
  · exact (List.perm_insertionSort DocRegistryBuilder.recLE _).trans
      (hvperm.trans (List.perm_insertionSort DocRegistryBuilder.recLE _).symm)
  · exact List.sorted_insertionSort DocRegistryBuilder.recLE _
  · exact List.sorted_insertionSort DocRegistryBuilder.recLE _
  · have hnd := hr1.2
    have hp := (List.perm_insertionSort DocRegistryBuilder.recLE
      (DocRegistryBuilder.scan_documents l1).registry).map Prod.fst
    exact hp.nodup_iff.mpr hnd


/-! ### Claims C3 and C4: the two parsers and the stated line rule -/

/-- Counterexample for C3 as stated: on a readable document whose header
value is wrapped in two layers of double quotes, the strict builder's parse
(which strips exactly one layer) and the lenient extractor's parse (which
strips all leading/trailing quote characters) produce different mappings. -/
theorem C3_quote_stripping_differs :
    (DocRegistryBuilder.extract_frontmatter [] (some exQuotedContent)).1 ≠
      DocumentVersionExtractor.extract_frontmatter (some exQuotedContent) := by
  decide

/-- Claim C3 (amended): on every readable document whose header values are
benign — each value is either quote-free at both ends or wrapped in exactly
one matching quote layer whose interior has no quote character at either
end — the strict builder's header parse and the lenient extractor's header
parse produce the same mapping; unreadable files yield no mapping in both,
with the builder additionally recording a read diagnostic. -/
theorem C3_parsers_agree_on_benign (p : Str) :
    (∀ c : Str, benignContent c = true →
      DocRegistryBuilder.extract_frontmatter p (some c) =
        (DocumentVersionExtractor.extract_frontmatter (some c), [])) ∧
    DocRegistryBuilder.extract_frontmatter p none =
      (none, [DocRegistryBuilder.ErrMsg.cantRead p]) ∧
    DocumentVersionExtractor.extract_frontmatter none = none := by
  refine ⟨?_, rfl, rfl⟩
  intro c hb
  unfold DocRegistryBuilder.extract_frontmatter
    DocumentVersionExtractor.extract_frontmatter
  dsimp only
  rw [extractMeta_benign_eq c hb]

/-- Witness for C3 (amended) at a concrete benign document. -/
theorem C3_parsers_agree_on_benign_witness :
    benignContent exHeaderA = true ∧
    DocRegistryBuilder.extract_frontmatter "p1".data (some exHeaderA) =
      (DocumentVersionExtractor.extract_frontmatter (some exHeaderA), []) :=
  ⟨by decide,
    (C3_parsers_agree_on_benign "p1".data).1 exHeaderA (by decide)⟩

/-- Counterexample for C4 as stated: the lenient Version Extractor's line
parse strips more than one quote layer, so it violates the stated
strip-exactly-one-matching-layer rule on a doubly-quoted value. -/
theorem C4_extractor_violates_rule :
    DocumentVersionExtractor.lineParse exQuotedLine ≠
      specLineParse exQuotedLine := by
  decide

/-- Witness for C7 at a concrete two-document tree scanned in both traversal
orders. -/
theorem C7_serialization_deterministic_witness :
    DocRegistryBuilder.save_registry
        (DocRegistryBuilder.scan_documents [exDoc1, exDocB]) =
      DocRegistryBuilder.save_registry
        (DocRegistryBuilder.scan_documents [exDocB, exDoc1]) :=
  C7_serialization_deterministic [exDoc1, exDocB] [exDocB, exDoc1]
    (List.Perm.swap exDocB exDoc1 []) (by decide) (by decide)

/-! ### Claim C5 -/

/-- Claim C5: for a parsed header mapping with all required fields, the
validator accepts the semver value iff it is exactly digits-dot-digits-dot-
digits (`1.0`, `1.0.0-rc1` and `v1.0.0` are rejected); on rejection it
records a validation error naming the offending string and the document is
excluded from the registry. -/
theorem C5_semver_validation (p c : Str) (m : Meta)
    (hm : DocRegistryBuilder.extractMeta c = some m)
    (hreq : ∀ f ∈ DocRegistryBuilder.required_fields,
      (lookupA m f).isSome = true) :
    (DocRegistryBuilder.validate_frontmatter m p =
        some (DocRegistryBuilder.ErrMsg.badSemver p
          (DocRegistryBuilder.pyStr
            (DocRegistryBuilder.getV m "semver".data))) ↔
      specSemverShape (DocRegistryBuilder.pyStr
        (DocRegistryBuilder.getV m "semver".data)) = false) ∧
    DocRegistryBuilder.semverMatch "1.0".data = false ∧
    DocRegistryBuilder.semverMatch "1.0.0-rc1".data = false ∧
    DocRegistryBuilder.semverMatch "v1.0.0".data = false ∧
    (∀ (st : DocRegistryBuilder.BState) (d : MdFile),
      d.content = some c → d.path = p →
      specSemverShape (DocRegistryBuilder.pyStr
        (DocRegistryBuilder.getV m "semver".data)) = false →
      (DocRegistryBuilder.stepB st d).registry = st.registry ∧
      (DocRegistryBuilder.stepB st d).duplicates = st.duplicates ∧
      (DocRegistryBuilder.stepB st d).errors = st.errors ++
        [DocRegistryBuilder.ErrMsg.badSemver p
          (DocRegistryBuilder.pyStr
            (DocRegistryBuilder.getV m "semver".data))]) := by
  have hnl : ('\n' : Char) ∉ DocRegistryBuilder.pyStr
      (DocRegistryBuilder.getV m "semver".data) := by
    unfold DocRegistryBuilder.getV DocRegistryBuilder.pyStr
    cases hl : lookupA m "semver".data with
    | none => simp only [Option.getD]; decide
    | some v =>
      cases v with
      | none => simp only [Option.getD]; decide
      | some u =>
        simp only [Option.getD]
        exact extractMeta_no_newline c m hm _ u (lookupA_mem m _ _ hl)
  have hiff := semverMatch_iff_shape
    (DocRegistryBuilder.pyStr (DocRegistryBuilder.getV m "semver".data)) hnl
  have hmiss : (DocRegistryBuilder.required_fields.filter
      fun f => (lookupA m f).isNone) = [] := by
    rw [List.filter_eq_nil_iff]
    intro f hf
    have := hreq f hf
    cases hl : lookupA m f with
    | none => rw [hl] at this; exact absurd this (by simp)
    | some v => simp [hl]
  have hvsem : specSemverShape (DocRegistryBuilder.pyStr
        (DocRegistryBuilder.getV m "semver".data)) = false →
      DocRegistryBuilder.validate_frontmatter m p =
        some (DocRegistryBuilder.ErrMsg.badSemver p
          (DocRegistryBuilder.pyStr
            (DocRegistryBuilder.getV m "semver".data))) := by
    intro hsh
    have hsm : ¬ DocRegistryBuilder.semverMatch (DocRegistryBuilder.pyStr
        (DocRegistryBuilder.getV m "semver".data)) = true := by
      intro hh
      rw [hiff.mp hh] at hsh
      exact Bool.noConfusion hsh
    unfold DocRegistryBuilder.validate_frontmatter
    rw [hmiss]
    rw [if_neg (by simp), if_pos hsm]
  refine ⟨⟨?_, hvsem⟩, by decide, by decide, by decide, ?_⟩
  · intro hv
    by_cases hsh : specSemverShape (DocRegistryBuilder.pyStr
        (DocRegistryBuilder.getV m "semver".data)) = true
    · exfalso
      have hsm := hiff.mpr hsh
      unfold DocRegistryBuilder.validate_frontmatter at hv
      rw [hmiss] at hv
      rw [if_neg (by simp), if_neg (by simp [hsm])] at hv
      split_ifs at hv <;> simp_all
    · exact Bool.eq_false_iff.mpr hsh
  · intro st d hd hp hsh
    have hval := hvsem hsh
    have h1 : ¬ (lookupA m "doc_key".data).isNone = true := by
      have := hreq "doc_key".data (by simp [DocRegistryBuilder.required_fields])
      cases hl : lookupA m "doc_key".data with
      | none => rw [hl] at this; exact absurd this (by simp)
      | some v => simp [hl]
    unfold DocRegistryBuilder.stepB
    rw [hd]
    dsimp only
    rw [hm]
    dsimp only
    rw [if_neg h1, hp, hval]
    exact ⟨rfl, rfl, rfl⟩

/-- Witness for C5 at the concrete malformed semver `1.0`. -/
theorem C5_semver_validation_witness :
    DocRegistryBuilder.validate_frontmatter exMetaBad "p2".data =
      some (DocRegistryBuilder.ErrMsg.badSemver "p2".data "1.0".data) ∧
    DocRegistryBuilder.semverMatch "1.0".data = false := by
  have h := C5_semver_validation "p2".data exHeaderBad exMetaBad
    (by decide) (by decide)
  constructor
  · have h2 := h.1.mpr (by decide)
    exact h2
  · exact h.2.1

/-! ### Claim C1 -/

/-- Claim C1: when exactly two documents with valid headers claim the same
`doc_key`, the registry keeps exactly the first-encountered record (the
later one never overwrites it), exactly one duplicate tuple
(key, first path, second path) is recorded for that key, and the scan
reports failure. -/
theorem C1_first_wins_single_duplicate (docs : List MdFile) (k : RKey)
    (d1 d2 : MdFile) (r1 r2 : DocRegistryBuilder.DocumentRecord)
    (h1 : DocRegistryBuilder.procDoc d1 = some (k, r1))
    (_h2 : DocRegistryBuilder.procDoc d2 = some (k, r2))
    (hcl : DocRegistryBuilder.claimants k docs = [d1, d2]) :
    lookupA (DocRegistryBuilder.scan_documents docs).registry k = some r1 ∧
    (DocRegistryBuilder.scan_documents docs).duplicates.filter
        (fun t => t.1 = k) = [(k, d1.path, d2.path)] ∧
    DocRegistryBuilder.report_status
      (DocRegistryBuilder.scan_documents docs) = false := by
  have hinit : lookupA (DocRegistryBuilder.initB).registry k = none := rfl
  have h := DocRegistryBuilder.scan_key_first k docs DocRegistryBuilder.initB
    d1 [d2] r1 hinit hcl h1
  have hpath := DocRegistryBuilder.procDoc_path d1 k r1 h1
  have hdup : (DocRegistryBuilder.scan_documents docs).duplicates.filter
      (fun t => t.1 = k) = [(k, d1.path, d2.path)] := by
    have := h.2
    unfold DocRegistryBuilder.dupsAt at this
    rw [hpath] at this
    exact this
  refine ⟨h.1, hdup, ?_⟩
  have hne : (DocRegistryBuilder.scan_documents docs).duplicates ≠ [] := by
    intro he
    rw [he] at hdup
    exact absurd hdup (by simp)
  cases hrep : DocRegistryBuilder.report_status
      (DocRegistryBuilder.scan_documents docs) with
  | true => exact absurd ((report_status_eq_true _).mp hrep).1 hne
  | false => rfl

/-- Witness for C1 at two concrete documents claiming `doc_key: a`. -/
theorem C1_first_wins_single_duplicate_witness :
    lookupA (DocRegistryBuilder.scan_documents [exDoc1, exDoc2]).registry
        (some "a".data) =
      some (DocRegistryBuilder.mkRecord "p1".data exMetaA) ∧
    (DocRegistryBuilder.scan_documents [exDoc1, exDoc2]).duplicates.filter
        (fun t => t.1 = some "a".data) =
      [(some "a".data, "p1".data, "p2".data)] ∧
    DocRegistryBuilder.report_status
      (DocRegistryBuilder.scan_documents [exDoc1, exDoc2]) = false := by
  have h := C1_first_wins_single_duplicate [exDoc1, exDoc2] (some "a".data)
    exDoc1 exDoc2 (DocRegistryBuilder.mkRecord "p1".data exMetaA)
    (DocRegistryBuilder.mkRecord "p2".data exMetaA)
    (by decide) (by decide) (by decide)
  exact h

/-! ### Claim C9 -/

/-- Claim C9: in the builder's scan, validation runs before the duplicate
check — a second claimant that fails validation yields a validation error
and no duplicate tuple, and a duplicate tuple is recorded only when the
second claimant itself validates. -/
theorem C9_validation_precedes_duplicate_check
    (st : DocRegistryBuilder.BState) (d : MdFile) (c : Str) (m : Meta)
    (e : DocRegistryBuilder.ErrMsg)
    (hc : d.content = some c)
    (hm : DocRegistryBuilder.extractMeta c = some m)
    (hk : (lookupA m "doc_key".data).isSome = true) :
    (DocRegistryBuilder.validate_frontmatter m d.path = some e →
      (lookupA st.registry (DocRegistryBuilder.getV m "doc_key".data)).isSome =
        true →
      (DocRegistryBuilder.stepB st d).errors = st.errors ++ [e] ∧
      (DocRegistryBuilder.stepB st d).duplicates = st.duplicates ∧
      (DocRegistryBuilder.stepB st d).registry = st.registry) ∧
    ((DocRegistryBuilder.stepB st d).duplicates ≠ st.duplicates →
      DocRegistryBuilder.validate_frontmatter m d.path = none) := by
  have h1 : ¬ (lookupA m "doc_key".data).isNone = true := by
    cases hl : lookupA m "doc_key".data with
    | none => rw [hl] at hk; exact absurd hk (by simp)
    | some v => simp [hl]
  constructor
  · intro hv _
    unfold DocRegistryBuilder.stepB
    rw [hc]
    dsimp only
    rw [hm]
    dsimp only
    rw [if_neg h1, hv]
    exact ⟨rfl, rfl, rfl⟩
  · intro hdup
    cases hv : DocRegistryBuilder.validate_frontmatter m d.path with
    | none => rfl
    | some e2 =>
      exfalso
      apply hdup
      unfold DocRegistryBuilder.stepB
      rw [hc]
      dsimp only
      rw [hm]
      dsimp only
      rw [if_neg h1, hv]

/-- Witness for C9: a second claimant of `doc_key: a` whose semver `1.0` is
malformed yields a validation error, no duplicate tuple, and no registry
change. -/
theorem C9_validation_precedes_duplicate_check_witness :
    (DocRegistryBuilder.stepB (DocRegistryBuilder.scan_documents [exDoc1])
        exDocBad).errors =
      (DocRegistryBuilder.scan_documents [exDoc1]).errors ++
        [DocRegistryBuilder.ErrMsg.badSemver "p2".data "1.0".data] ∧
    (DocRegistryBuilder.stepB (DocRegistryBuilder.scan_documents [exDoc1])
        exDocBad).duplicates =
      (DocRegistryBuilder.scan_documents [exDoc1]).duplicates ∧
    (DocRegistryBuilder.stepB (DocRegistryBuilder.scan_documents [exDoc1])
        exDocBad).registry =
      (DocRegistryBuilder.scan_documents [exDoc1]).registry :=
  (C9_validation_precedes_duplicate_check
    (DocRegistryBuilder.scan_documents [exDoc1]) exDocBad exHeaderBad exMetaBad
    (DocRegistryBuilder.ErrMsg.badSemver "p2".data "1.0".data)
    rfl (by decide) (by decide)).1 (by decide) (by decide)

/-- Claim C10: the extractor's scan counts qualifying document occurrences
(one per document, even on a repeated `doc_key`), so the returned count — and
the `policy_count` a captured snapshot copies from it — is at least the
number of entries of the versions/active-policies mapping, with equality
exactly when all qualifying documents have distinct `doc_key`s. -/
theorem C10_count_vs_mapping (docs : List MdFile) (filter : Option Str)
    (runId now : Str) :
    (DocumentVersionExtractor.scan_documents filter docs).count =
      (docs.filterMap (DocumentVersionExtractor.qualE filter)).length ∧
    (DocumentVersionExtractor.scan_documents filter docs).versions.length ≤
      (DocumentVersionExtractor.scan_documents filter docs).count ∧
    ((DocumentVersionExtractor.scan_documents filter docs).count =
        (DocumentVersionExtractor.scan_documents filter docs).versions.length ↔
      ((docs.filterMap (DocumentVersionExtractor.qualE filter)).map
        Prod.fst).Nodup) ∧
    (PipelineRunManager.capture_policy_snapshot runId now docs).policy_count =
      (DocumentVersionExtractor.scan_documents (some "active".data) docs).count ∧
    (PipelineRunManager.capture_policy_snapshot runId now
        docs).active_policies.length =
      (DocumentVersionExtractor.scan_documents (some "active".data)
        docs).versions.length := by
  have hcount : (DocumentVersionExtractor.scan_documents filter docs).count =
      (docs.filterMap (DocumentVersionExtractor.qualE filter)).length := by
    have := DocumentVersionExtractor.scan_count_fold filter docs ⟨[], 0⟩
    simpa [DocumentVersionExtractor.scan_documents] using this
  have hlen := DocumentVersionExtractor.scan_versions_length filter docs
  have hql : ((docs.filterMap (DocumentVersionExtractor.qualE filter)).map
      Prod.fst).length =
      (docs.filterMap (DocumentVersionExtractor.qualE filter)).length :=
    List.length_map _ _
  refine ⟨hcount, ?_, ?_, rfl, ?_⟩
  · rw [hcount, hlen, ← hql]
    exact (List.dedup_sublist _).length_le
  · rw [hcount, hlen, ← hql]
    constructor
    · intro he
      have hd := List.Sublist.eq_of_length (List.dedup_sublist _) he.symm
      rw [← hd]
      exact List.nodup_dedup _
    · intro hn
      rw [List.dedup_eq_self.mpr hn]
  · simp [PipelineRunManager.capture_policy_snapshot,
      DocumentVersionExtractor.to_simple_dict]
